import Mathlib

/-!
Verification of the WNFS (Web Native File System) core against its
natural-language specification.

Shallow embedding conventions used throughout this development:
* Rust machine integers and big integers (`usize`, `BigUint`) become `Nat`.
* `BTreeMap` / `BTreeSet` / `HashMap` become association lists / lists with
  map semantics given by lookup; `Vec` becomes `List`.
* Fallible Rust functions returning `Result` become `Except`; `Option`
  stays `Option`.
* Cryptographic primitives implemented by external crates (SHA3, SHA2,
  AEAD ciphers, the skip-ratchet) that are not part of the repository
  sources are taken as explicit function parameters, or modelled from the
  spec where the spec pins down their structure; each such definition is
  marked in its doc comment.
* `Rc<T>` is erased (persistent values); interior-mutability caches
  (`OnceCell<Cid>`, i.e. the `persisted_as` field) become `Option Cid`.
-/

namespace WNFS

/-! ### Name accumulators (`wnfs-nameaccumulator/src/lib.rs`) -/

/-- Shared accumulator parameters: an RSA modulus and a generator
(`AccumulatorSetup` in `wnfs-nameaccumulator/src/lib.rs`). -/
structure AccumulatorSetup where
  modulus : Nat
  generator : Nat
deriving DecidableEq

/-- A name segment, a big natural (invariant in the source: a 256-bit prime;
the type itself does not enforce primality, and none of the verified
properties need it). -/
structure NameSegment where
  val : Nat
deriving DecidableEq

/-- A name accumulator: a big natural `state` in the RSA group.
The Rust struct also carries `serialized_cache : OnceCell<[u8; 256]>`, a pure
cache of the little-endian serialization that is ignored by `PartialEq`
(which compares `state` only) and by all semantics; it is omitted here, so
Lean `=` coincides with the source `PartialEq`. -/
structure NameAccumulator where
  state : Nat
deriving DecidableEq

/-- `NameAccumulator::empty`: starts at the setup's generator. -/
def NameAccumulator.empty (setup : AccumulatorSetup) : NameAccumulator :=
  { state := setup.generator }

/-- `NameAccumulator::add`: `state ← state.modpow(segment, modulus)`,
i.e. `state ^ segment mod modulus`. -/
def NameAccumulator.add (a : NameAccumulator) (segment : NameSegment)
    (setup : AccumulatorSetup) : NameAccumulator :=
  { state := a.state ^ segment.val % setup.modulus }

/-- A `Name`: an accumulator to interpret segments relative to, the list of
segments, and a cache (`OnceCell<NameAccumulator>`) of the accumulated
value, modelled as `Option`. -/
structure Name where
  relativeTo : NameAccumulator
  segments : List NameSegment
  accumulated : Option NameAccumulator
deriving DecidableEq

/-- The source `impl PartialEq for Name` (`wnfs-nameaccumulator/src/lib.rs`
lines 237-257): each side contributes `accumulated.get()` or, if its
segment list is empty, its `relative_to`; if both sides contribute, compare
those accumulators, otherwise compare `relative_to` and `segments`
componentwise. -/
def Name.eqImpl (self other : Name) : Bool :=
  let left : Option NameAccumulator :=
    self.accumulated.orElse fun _ =>
      if self.segments.isEmpty then some self.relativeTo else none
  let right : Option NameAccumulator :=
    other.accumulated.orElse fun _ =>
      if other.segments.isEmpty then some other.relativeTo else none
  match left, right with
  | some l, some r => l = r
  | _, _ => self.relativeTo = other.relativeTo ∧ self.segments = other.segments

/-- `Name::as_accumulator`: return the cached accumulator if present,
otherwise fold the segments into `relative_to` (the `get_or_init` closure). -/
def Name.asAccumulator (self : Name) (setup : AccumulatorSetup) : NameAccumulator :=
  match self.accumulated with
  | some acc => acc
  | none => self.segments.foldl (fun acc seg => acc.add seg setup) self.relativeTo

/-! ### Block store (`wnfs-common/src/blockstore.rs`) -/

namespace Blockstore

/-- Byte strings (`Vec<u8>`); bytes are modelled as naturals. -/
abbrev Bytes := List Nat

/-- A CID: version, codec tag, and multihash digest (`libipld::Cid`).
`Cid::new(Version::V1, codec, hash)` is modelled by the constructor with
`version = 1`. -/
structure Cid where
  version : Nat
  codec : Nat
  multihash : Bytes
deriving DecidableEq

/-- The maximum block size, `MAX_BLOCK_SIZE` from `wnfs-common`
(262,144 bytes; the constant's definition site is outside the given
sources, the value is fixed by the spec: "Blocks are ≤ 262,144 bytes"). -/
def MAX_BLOCK_SIZE : Nat := 262144

/-- `BlockStoreError` variants relevant to `put_block` / `get_block`. -/
inductive BlockStoreError where
  | maximumBlockSizeExceeded (size : Nat)
  | cidNotFound (cid : Cid)
deriving DecidableEq

/-- `MemoryBlockStore(HashMap<String, Vec<u8>>)`: an in-memory map keyed by
`cid.to_string()`. The map is modelled as an association list with
lookup-first semantics and the key as the `Cid` itself (`Cid::to_string`
is an injective multibase rendering, so keying by the `Cid` is the same
map). -/
structure MemoryBlockStore where
  map : List (Cid × Bytes)
deriving DecidableEq

/-- `MemoryBlockStore::put_block` (`blockstore.rs` lines 62-73): reject
byte strings above `MAX_BLOCK_SIZE`; otherwise hash with SHA2-256, build a
v1 CID from the codec and the hash, and insert the bytes at that CID.
`sha256` is a parameter: the SHA2-256 implementation is an external crate
(`libipld::multihash::Code::Sha2_256.digest`). -/
def putBlock (sha256 : Bytes → Bytes) (self : MemoryBlockStore)
    (bytes : Bytes) (codec : Nat) :
    Except BlockStoreError (MemoryBlockStore × Cid) :=
  if bytes.length > MAX_BLOCK_SIZE then
    .error (.maximumBlockSizeExceeded bytes.length)
  else
    let cid : Cid := { version := 1, codec := codec, multihash := sha256 bytes }
    .ok ({ map := (cid, bytes) :: self.map }, cid)

/-- `MemoryBlockStore::get_block` (`blockstore.rs` lines 76-83). -/
def getBlock (self : MemoryBlockStore) (cid : Cid) :
    Except BlockStoreError Bytes :=
  match self.map.lookup cid with
  | some bytes => .ok bytes
  | none => .error (.cidNotFound cid)

/-- A store is well formed for a hash function when every stored block sits
under the CID of its own bytes (every entry was created by `put_block`
with some codec). -/
def WellFormed (sha256 : Bytes → Bytes) (s : MemoryBlockStore) : Prop :=
  ∀ p ∈ s.map, p.1.multihash = sha256 p.2

end Blockstore

/-! ### Private forest merge (`wnfs/src/private/forest.rs`) -/

namespace Forest

/-- The `BTreeSet<Cid>` union used as the merge combine function
(`|a, b| Ok(a.union(b).cloned().collect())`, `forest.rs` line 352).
`BTreeSet`s are their strictly-increasing element lists; union is the
standard sorted-merge that keeps one copy of equal elements. -/
def setUnion : List Nat → List Nat → List Nat
  | [], ys => ys
  | xs, [] => xs
  | x :: xs, y :: ys =>
    if x < y then x :: setUnion xs (y :: ys)
    else if y < x then y :: setUnion (x :: xs) ys
    else x :: setUnion xs ys
termination_by a b => a.length + b.length

/-- Modelled from the spec: the node-level `hamt::merge` called by
`Hamt::merge` (`forest.rs` line 349) lives in `wnfs/src/private/hamt`,
which is not among the given sources. Spec §4.3: "merge(a, b, combine) —
recursive: if both sides are leaves, combine values; if one side is a
leaf, insert it into the other; otherwise merge children index-wise."
The trie is canonical for a given key set (children indexed by nibbles of
the key hash), so it is represented by its ordered association list from
key hash to value, and merge combines the two ordered lists, applying the
combine function (CID-set union) at equal keys. -/
def nodeMerge : List (Nat × List Nat) → List (Nat × List Nat) → List (Nat × List Nat)
  | [], ys => ys
  | xs, [] => xs
  | (k1, v1) :: xs, (k2, v2) :: ys =>
    if k1 < k2 then (k1, v1) :: nodeMerge xs ((k2, v2) :: ys)
    else if k2 < k1 then (k2, v2) :: nodeMerge ((k1, v1) :: xs) ys
    else (k1, setUnion v1 v2) :: nodeMerge xs ys
termination_by a b => a.length + b.length

/-- A semantic version triple (`semver::Version`). -/
structure Version where
  major : Nat
  minor : Nat
  patch : Nat
deriving DecidableEq

/-- The `Hamt<Namefilter, BTreeSet<Cid>>` structure specialized as the
private forest: a version and a root node. Every constructible forest
carries the crate's `HAMT_VERSION` (loading any other version fails with
`UnexpectedVersion`, spec §6.4). -/
structure Hamt where
  version : Version
  root : List (Nat × List Nat)
deriving DecidableEq

/-- `Hamt::merge` (`forest.rs` lines 348-361): merge the two roots with
CID-set union as the combine function, keeping `self`'s version. -/
def Hamt.merge (a b : Hamt) : Hamt :=
  { version := a.version, root := nodeMerge a.root b.root }

end Forest

/-! ### Private file nodes (`wnfs/src/private/file.rs`) -/

namespace Priv

/-- Content identifiers for this namespace, opaque naturals. -/
abbrev Cid := Nat

/-- File and directory metadata (`wnfs_common::Metadata`): creation and
modification timestamps (the unix-fs fields not used by any verified
property are omitted). -/
structure Metadata where
  created : Int
  modified : Int
deriving DecidableEq

/-- `Metadata::new(time)`. -/
def Metadata.new (time : Int) : Metadata := ⟨time, time⟩

/-- Modelled from the spec: the skip-ratchet (external `skip_ratchet`
crate, spec §4.1 and §3.1). A ratchet value is its seed together with the
number of increments applied; `inc` is one increment. The three-strata
hash-state representation only affects cost, not the revision semantics
used here. -/
structure Ratchet where
  seed : Nat
  rev : Nat
deriving DecidableEq

/-- `Ratchet::inc`: the next revision. -/
def Ratchet.inc (r : Ratchet) : Ratchet := { r with rev := r.rev + 1 }

/-- A temporal key (32-byte key derived from a ratchet state). -/
structure TemporalKey where
  seed : Nat
  rev : Nat
deriving DecidableEq

/-- Modelled from the spec: `temporal_key = H_temporal(ratchet)` (spec
§6.3); the hash of the ratchet state is modelled as the injective function
of the ratchet's seed and revision. -/
def Ratchet.deriveKey (r : Ratchet) : TemporalKey := ⟨r.seed, r.rev⟩

/-- Modelled from the spec: `Encrypted<Cid>` (module
`wnfs/src/private/encrypted.rs` is not among the given sources): the AEAD
encryption of a CID under a temporal key, modelled as the pair that
determines the ciphertext. -/
structure EncryptedCid where
  value : Cid
  key : TemporalKey
deriving DecidableEq

/-- `Encrypted::from_value(value, key)`. -/
def EncryptedCid.fromValue (value : Cid) (key : TemporalKey) : EncryptedCid :=
  ⟨value, key⟩

/-- `PrivateNodeHeader`: the node's name, inumber and ratchet
(`wnfs/src/private/node.rs`, spec §3.1). -/
structure PrivateNodeHeader where
  name : Name
  inumber : NameSegment
  ratchet : Ratchet
deriving DecidableEq

/-- `PrivateNodeHeader::derive_temporal_key`: the current ratchet's key. -/
def PrivateNodeHeader.deriveTemporalKey (h : PrivateNodeHeader) : TemporalKey :=
  h.ratchet.deriveKey

/-- `PrivateNodeHeader::advance_ratchet`. -/
def PrivateNodeHeader.advanceRatchet (h : PrivateNodeHeader) : PrivateNodeHeader :=
  { h with ratchet := h.ratchet.inc }

/-- A snapshot key (32 random bytes / `SHA3(temporal key)`). -/
structure SnapshotKey where
  key : Nat
deriving DecidableEq

/-- `FileContent` (`file.rs` lines 89-98): inline bytes or external
sharded content. -/
inductive FileContent where
  | inline (data : List Nat)
  | external (key : SnapshotKey) (blockCount : Nat) (blockContentSize : Nat)
deriving DecidableEq

/-- `PrivateFileContent` (`file.rs` lines 79-84): the `persisted_as`
once-cell, previous links (a `BTreeSet` of distance/encrypted-CID pairs,
listed in order), metadata and content. -/
structure PrivateFileContent where
  persistedAs : Option Cid
  previous : List (Nat × EncryptedCid)
  metadata : Metadata
  content : FileContent
deriving DecidableEq

/-- `PrivateFile` (`file.rs` lines 73-76). -/
structure PrivateFile where
  header : PrivateNodeHeader
  content : PrivateFileContent
deriving DecidableEq

/-- `PrivateFile::prepare_next_revision` (`file.rs` lines 590-610): if the
node was never persisted, return it unchanged (`Rc::make_mut` only);
otherwise make the previous links the singleton
`{(1, AEAD(previous_cid, temporal_key))}`, clear `persisted_as`, and
advance the ratchet one step. -/
def PrivateFile.prepareNextRevision (f : PrivateFile) : PrivateFile :=
  match f.content.persistedAs with
  | none => f
  | some previousCid =>
    let temporalKey := f.header.deriveTemporalKey
    let previousLink := (1, EncryptedCid.fromValue previousCid temporalKey)
    { header := f.header.advanceRatchet
      content := { f.content with persistedAs := none, previous := [previousLink] } }

/-! #### Sharded file content (`wnfs/src/private/file.rs` lines 315-532) -/

/-- `NONCE_SIZE`: the XNonce prefix of an encrypted block (12 bytes,
spec §6.2; the constant lives in `wnfs/src/private/key.rs`, not among the
sources, its value is fixed by the spec and by the comment above
`MAX_BLOCK_CONTENT_SIZE` in `file.rs`). -/
def NONCE_SIZE : Nat := 12

/-- `AUTHENTICATION_TAG_SIZE`: the AEAD tag suffix (16 bytes, spec §6.2). -/
def AUTHENTICATION_TAG_SIZE : Nat := 16

/-- `MAX_BLOCK_SIZE` (262,144 bytes, spec §3.1). -/
def MAX_BLOCK_SIZE : Nat := 262144

/-- `MAX_BLOCK_CONTENT_SIZE = MAX_BLOCK_SIZE - NONCE_SIZE -
AUTHENTICATION_TAG_SIZE` (`file.rs` line 32; = 262,116). -/
def MAX_BLOCK_CONTENT_SIZE : Nat :=
  MAX_BLOCK_SIZE - NONCE_SIZE - AUTHENTICATION_TAG_SIZE

/-- Modelled from the spec: an AEAD-encrypted raw block
(`SnapshotKey::encrypt`, `wnfs/src/private/key.rs`, not among the
sources): `nonce ‖ ciphertext ‖ tag`. The ciphertext value is modelled by
the (key, plaintext) pair that determines it; the random nonce only makes
ciphertexts of equal plaintexts distinct, which no verified property
depends on. -/
structure Ciphertext where
  key : SnapshotKey
  plain : List Nat
deriving DecidableEq

/-- `SnapshotKey::encrypt` of a plaintext slice (fresh nonce drawn
internally). -/
def SnapshotKey.encrypt (key : SnapshotKey) (plain : List Nat) : Ciphertext :=
  ⟨key, plain⟩

/-- The byte length of the encrypted block:
`NONCE_SIZE + plaintext + AUTHENTICATION_TAG_SIZE`. -/
def Ciphertext.length (ct : Ciphertext) : Nat :=
  NONCE_SIZE + ct.plain.length + AUTHENTICATION_TAG_SIZE

/-- Errors surfaced by the sharded-content functions. -/
inductive FsErr where
  | fileShardNotFound
  | blockNotFound
  | maximumBlockSizeExceeded
  | decryptFailed
deriving DecidableEq

/-- `SnapshotKey::decrypt`: authenticated decryption fails on a key
mismatch (tag verification), otherwise returns the plaintext. -/
def SnapshotKey.decrypt (key : SnapshotKey) (ct : Ciphertext) :
    Except FsErr (List Nat) :=
  if ct.key = key then .ok ct.plain else .error .decryptFailed

/-- An in-memory raw-block store specialized to encrypted blocks, keyed by
CID with most recent insertion first, mirroring
`MemoryBlockStore::put_block` for `IpldCodec::Raw` blocks; `cidOf` (the
SHA2-256-based content CID of the block bytes) is a parameter. -/
structure RawBlockStore where
  map : List (Cid × Ciphertext)
deriving DecidableEq

/-- `put_block` on the raw store: enforce `MAX_BLOCK_SIZE`, then insert at
the content CID. -/
def putBlockRaw (cidOf : Ciphertext → Cid) (s : RawBlockStore)
    (ct : Ciphertext) : Except FsErr (RawBlockStore × Cid) :=
  if ct.length > MAX_BLOCK_SIZE then .error .maximumBlockSizeExceeded
  else .ok ({ map := (cidOf ct, ct) :: s.map }, cidOf ct)

/-- `get_block` on the raw store. -/
def getBlockRaw (s : RawBlockStore) (cid : Cid) : Except FsErr Ciphertext :=
  match s.map.lookup cid with
  | some ct => .ok ct
  | none => .error .blockNotFound

/-- Association-list insert with in-place replacement (`BTreeMap`/HAMT
`set` semantics at the map level). -/
def rootInsert (k : Nat) (v : List Cid) :
    List (Nat × List Cid) → List (Nat × List Cid)
  | [] => [(k, v)]
  | (k', v') :: rest =>
    if k = k' then (k, v) :: rest else (k', v') :: rootInsert k v rest

/-- The `PrivateForest` of the accumulator-based code
(`Hamt<NameAccumulator, BTreeSet<Cid>>` plus the accumulator setup,
`wnfs/src/private/forest.rs`). The HAMT node operations (`set`,
`get_by_hash`) live in `wnfs/src/private/hamt`, not among the sources;
per spec §4.3 the trie is the canonical map keyed by the SHA3-256 hash of
the serialized key, so the root is modelled as that map. -/
structure PrivateForest where
  setup : AccumulatorSetup
  root : List (Nat × List Cid)
deriving DecidableEq

/-- `PrivateForest::get_accumulator_setup`. -/
def PrivateForest.getAccumulatorSetup (f : PrivateForest) : AccumulatorSetup :=
  f.setup

/-- `PrivateForest::get_encrypted(name_hash)`: the CID set at the label
hash, or absent. -/
def PrivateForest.getEncrypted (f : PrivateForest) (nameHash : Nat) :
    Option (List Cid) :=
  f.root.lookup nameHash

/-- `PrivateForest::put_encrypted(name, values)` (`forest.rs` lines
202-223): read the current set at the key (the HAMT hashes the key with
SHA3-256, a parameter `sha3acc` applied to the accumulator state — the
256-byte little-endian serialization is injective on reduced states),
extend it with the new values (`BTreeSet` union), and set it back. -/
def PrivateForest.putEncrypted (sha3acc : Nat → Nat) (f : PrivateForest)
    (name : NameAccumulator) (values : List Cid) : PrivateForest :=
  let h := sha3acc name.state
  let cids := (f.root.lookup h).getD []
  { f with root := rootInsert h (Forest.setUnion cids values) f.root }

/-- The externally implemented hash-to-prime segment derivations and the
content-CID function used by the sharding code, passed as parameters:
`segOfKey key` is `NameSegment::from_digest(Sha3_256(key))` (`file.rs`
lines 554-565), `segOfKeyIdx key index` is
`NameSegment::from_digest(Sha3_256(key ‖ index_le))` (lines 568-582),
`sha3acc` is `Sha3_256::hash` on serialized accumulators, and `cidOf` is
the SHA2-256 content CID of a raw block. -/
structure FileCrypto where
  segOfKey : SnapshotKey → NameSegment
  segOfKeyIdx : SnapshotKey → Nat → NameSegment
  sha3acc : Nat → Nat
  cidOf : Ciphertext → Cid

/-- `PrivateFile::create_revision_name` (`file.rs` lines 554-565). -/
def createRevisionName (fc : FileCrypto) (fileBlockName : NameAccumulator)
    (key : SnapshotKey) (setup : AccumulatorSetup) : NameAccumulator :=
  fileBlockName.add (fc.segOfKey key) setup

/-- `PrivateFile::create_block_label` (`file.rs` lines 568-582). -/
def createBlockLabel (fc : FileCrypto) (key : SnapshotKey) (index : Nat)
    (fileRevisionName : NameAccumulator) (setup : AccumulatorSetup) :
    NameAccumulator :=
  fileRevisionName.add (fc.segOfKeyIdx key index) setup

/-- `PrivateFile::generate_shard_labels` (`file.rs` lines 535-552): the
labels for indices `index, index+1, …, block_count - 1`. -/
def generateShardLabels (fc : FileCrypto) (key : SnapshotKey) (index : Nat)
    (blockCount : Nat) (fileBlockName : NameAccumulator)
    (setup : AccumulatorSetup) : List NameAccumulator :=
  let fileRevisionName := createRevisionName fc fileBlockName key setup
  (List.range' index (blockCount - index)).map fun i =>
    createBlockLabel fc key i fileRevisionName setup

/-- The shard count of `prepare_content` (`file.rs` line 416). The source
computes `(len as f64 / MAX_BLOCK_CONTENT_SIZE as f64).ceil() as usize`;
for every length below 2⁵³ (so in particular on the `[0, 2 ·
MAX_BLOCK_CONTENT_SIZE]` range the claim quantifies over) both operands
are exactly representable, the correctly rounded quotient of a
non-multiple can never land on an integer, and ceiling of a multiple is
exact — hence the double-precision result equals the exact ceiling
`(len + MAX_BLOCK_CONTENT_SIZE - 1) / MAX_BLOCK_CONTENT_SIZE`, which is
how it is modelled (written with the zero case split off; the
`blockCountOf_eq` lemma restates it as that closed formula). -/
def blockCountOf : Nat → Nat
  | 0 => 0
  | len + 1 => len / MAX_BLOCK_CONTENT_SIZE + 1

/-- One shard's plaintext: `content[index * MBCS .. min(len, (index+1) *
MBCS)]` (`file.rs` lines 421-423). -/
def shardSlice (content : List Nat) (index : Nat) : List Nat :=
  (content.take (min content.length ((index + 1) * MAX_BLOCK_CONTENT_SIZE))).drop
    (index * MAX_BLOCK_CONTENT_SIZE)

/-- The `for (index, label) in generate_shard_labels(key, 0, block_count,
…).enumerate()` loop of `prepare_content` (`file.rs` lines 418-431),
written recursively over the remaining count `n` with the running `index`:
slice the content, encrypt it, put the raw block, and union the CID into
the forest at the block label. -/
def prepareBlocks (fc : FileCrypto) (key : SnapshotKey) (content : List Nat)
    (revName : NameAccumulator) (setup : AccumulatorSetup) :
    Nat → Nat → PrivateForest → RawBlockStore →
    Except FsErr (PrivateForest × RawBlockStore)
  | _, 0, forest, store => .ok (forest, store)
  | index, n + 1, forest, store =>
    let slice := shardSlice content index
    let encBytes := SnapshotKey.encrypt key slice
    match putBlockRaw fc.cidOf store encBytes with
    | .error e => .error e
    | .ok (store', contentCid) =>
      let forest' := forest.putEncrypted fc.sha3acc
        (createBlockLabel fc key index revName setup) [contentCid]
      prepareBlocks fc key content revName setup (index + 1) n forest' store'

/-- `PrivateFile::prepare_content` (`file.rs` lines 405-438): derive the
file's accumulator, compute the block count, store every shard, and
return the external `FileContent`. The fresh random snapshot key drawn
from the RNG is the explicit argument `key`. -/
def PrivateFile.prepareContent (fc : FileCrypto) (fileName : Name)
    (content : List Nat) (forest : PrivateForest) (store : RawBlockStore)
    (key : SnapshotKey) :
    Except FsErr (FileContent × PrivateForest × RawBlockStore) :=
  let setup := forest.getAccumulatorSetup
  let fileNameAcc := fileName.asAccumulator setup
  let blockCount := blockCountOf content.length
  let revName := createRevisionName fc fileNameAcc key setup
  match prepareBlocks fc key content revName setup 0 blockCount forest store with
  | .error e => .error e
  | .ok (forest', store') =>
    .ok (.external key blockCount MAX_BLOCK_CONTENT_SIZE, forest', store')

/-- `Name::with_segments_added` / `add_segments`: extend the segments and
reset the accumulated-value cache. -/
def Name.withSegmentsAdded (n : Name) (segs : List NameSegment) : Name :=
  { n with segments := n.segments ++ segs, accumulated := none }

/-- `Ratchet::zero(seed)` (spec §3.1). -/
def Ratchet.zero (seed : Nat) : Ratchet := ⟨seed, 0⟩

/-- Modelled from the spec: `PrivateNodeHeader::new(parent_name, rng)` of
the accumulator-based code (its `node.rs` is not among the sources; spec
§3.1: `name = parent.name + inumber`, fresh random inumber and ratchet
seed, which are the explicit arguments here). -/
def PrivateNodeHeader.new (parentName : Name) (inumber : NameSegment)
    (ratchetSeed : Nat) : PrivateNodeHeader :=
  ⟨Name.withSegmentsAdded parentName [inumber], inumber, Ratchet.zero ratchetSeed⟩

/-- `PrivateFile::with_content` (`file.rs` lines 184-204): fresh header,
then `prepare_content` under the header's name; previous links empty,
nothing persisted yet. -/
def PrivateFile.withContent (fc : FileCrypto) (parentName : Name)
    (time : Int) (content : List Nat) (forest : PrivateForest)
    (store : RawBlockStore) (inumber : NameSegment) (ratchetSeed : Nat)
    (key : SnapshotKey) :
    Except FsErr (PrivateFile × PrivateForest × RawBlockStore) :=
  let header := PrivateNodeHeader.new parentName inumber ratchetSeed
  match PrivateFile.prepareContent fc header.name content forest store key with
  | .error e => .error e
  | .ok (fileContent, forest', store') =>
    .ok (⟨header, ⟨none, [], Metadata.new time, fileContent⟩⟩, forest', store')

/-- `PrivateFile::decrypt_block` (`file.rs` lines 510-532): look the label
hash up in the forest (absent ⇒ `FileShardNotFound`), take the first CID
of the set — the source unwraps it with `.expect("Expected set with at
least a Cid")`, whose panic is modelled as the outer `none` — then fetch
and decrypt the block. -/
def PrivateFile.decryptBlock (fc : FileCrypto) (key : SnapshotKey)
    (label : NameAccumulator) (forest : PrivateForest)
    (store : RawBlockStore) : Option (Except FsErr (List Nat)) :=
  let labelHash := fc.sha3acc label.state
  match forest.getEncrypted labelHash with
  | none => some (.error .fileShardNotFound)
  | some cids =>
    match cids.head? with
    | none => none
    | some cid =>
      some (match getBlockRaw store cid with
        | .error e => .error e
        | .ok encBytes => SnapshotKey.decrypt key encBytes)

/-- The shard-by-shard traversal of `stream_content`'s `try_stream!` body:
first failure (or the first panic) stops the stream. -/
def streamGo (fc : FileCrypto) (key : SnapshotKey) (forest : PrivateForest)
    (store : RawBlockStore) :
    List NameAccumulator → Option (Except FsErr (List (List Nat)))
  | [] => some (.ok [])
  | label :: rest =>
    match PrivateFile.decryptBlock fc key label forest store with
    | none => none
    | some (.error e) => some (.error e)
    | some (.ok bytes) =>
      match streamGo fc key forest store rest with
      | none => none
      | some (.error e) => some (.error e)
      | some (.ok chunks) => some (.ok (bytes :: chunks))

/-- `PrivateFile::stream_content(index, forest, store)` (`file.rs` lines
315-345), collected into the list of yielded chunks: inline content
yields itself only from index 0 (`FileShardNotFound` otherwise); external
content yields `decrypt_block` of each generated shard label. `none`
models a panic inside the stream. -/
def PrivateFile.streamContent (fc : FileCrypto) (f : PrivateFile)
    (index : Nat) (forest : PrivateForest) (store : RawBlockStore) :
    Option (Except FsErr (List (List Nat))) :=
  match f.content.content with
  | .inline data =>
    if index ≠ 0 then some (.error .fileShardNotFound) else some (.ok [data])
  | .external key blockCount _ =>
    let setup := forest.getAccumulatorSetup
    let acc := f.header.name.asAccumulator setup
    streamGo fc key forest store
      (generateShardLabels fc key index blockCount acc setup)

/-- `PrivateFile::get_content` (`file.rs` lines 389-402): concatenate the
chunks of `stream_content(0)`. Each chunk is taken with `chunk.unwrap()`,
so an errored chunk — like a panic inside the stream — panics: both are
the `none` result. -/
def PrivateFile.getContent (fc : FileCrypto) (f : PrivateFile)
    (forest : PrivateForest) (store : RawBlockStore) : Option (List Nat) :=
  match f.streamContent fc 0 forest store with
  | some (.ok chunks) => some chunks.flatten
  | _ => none

/-- The hash under which shard `j` of a file with name accumulator `acc`
is deposited: SHA3 of `(acc + segment(key)) + segment(key ‖ j)`. -/
def shardLabelHash (fc : FileCrypto) (key : SnapshotKey)
    (setup : AccumulatorSetup) (acc : NameAccumulator) (j : Nat) : Nat :=
  fc.sha3acc (createBlockLabel fc key j (createRevisionName fc acc key setup) setup).state

/-- The forest key of shard `j` given the already-derived revision name. -/
def blockLabelHash (fc : FileCrypto) (key : SnapshotKey)
    (setup : AccumulatorSetup) (revName : NameAccumulator) (j : Nat) : Nat :=
  fc.sha3acc (createBlockLabel fc key j revName setup).state

/-- The ciphertext of shard `j`. -/
def shardCt (key : SnapshotKey) (content : List Nat) (j : Nat) : Ciphertext :=
  ⟨key, shardSlice content j⟩

/-- The content CID of shard `j`. -/
def shardCid (fc : FileCrypto) (key : SnapshotKey) (content : List Nat)
    (j : Nat) : Cid :=
  fc.cidOf ⟨key, shardSlice content j⟩

/-- The forest key of shard `j` of the file that `with_content` creates
from the given parent name, inumber and ratchet seed. -/
def fileLabelHash (fc : FileCrypto) (parentName : Name) (inumber : NameSegment)
    (ratchetSeed : Nat) (setup : AccumulatorSetup) (key : SnapshotKey)
    (j : Nat) : Nat :=
  shardLabelHash fc key setup
    ((PrivateNodeHeader.new parentName inumber ratchetSeed).name.asAccumulator setup) j

/-- An injective encoding of byte strings into naturals, used to
instantiate the content-CID parameter in witnesses. -/
def encListNat (l : List Nat) : Nat :=
  l.foldr (fun a b => Nat.pair a b + 1) 0

/-- A concrete, collision-free `FileCrypto` instantiation for witnesses:
identity label hash, simple injective segment derivations, and an
injective pairing as the content CID. -/
def fcW : FileCrypto :=
  { segOfKey := fun k => ⟨k.key⟩,
    segOfKeyIdx := fun k i => ⟨k.key + i⟩,
    sha3acc := id,
    cidOf := fun ct => Nat.pair ct.key.key (encListNat ct.plain) }

end Priv

/-! ### The old-crate private directory fix-up
(`src/crates/fs/private/directory.rs`) -/

namespace OldPriv

/-- Keys, hash outputs and namefilters of the old crate, all opaque byte
strings modelled as naturals. -/
abbrev Key := Nat

/-- Hash output (32 bytes). -/
abbrev HashOutput := Nat

/-- A namefilter (bloom filter over name parts). -/
abbrev Namefilter := Nat

/-- Modelled from the spec: the old-crate skip ratchet value (external
`skip_ratchet` crate), a seed plus revision count. -/
structure Ratchet where
  seed : Nat
  rev : Nat
deriving DecidableEq

/-- The cryptographic primitives used by `generate_child_private_ref` /
`generate_child_keys` that live in external crates (`sha3`,
`skip_ratchet`, the AEAD cipher) or in sources not included
(`Namefilter::saturate`), passed as parameters: `deriveKey` is
`Ratchet::derive_key`, `sha3` is `Sha3_256::hash`, `saturate` is
`Namefilter::saturate`, `encrypt key nonce bytes` is `Key::encrypt`, and
`nonce` stands for the random nonce drawn from `R`. -/
structure Crypto where
  deriveKey : Ratchet → Key
  sha3 : Nat → HashOutput
  saturate : Namefilter → Namefilter
  encrypt : Key → Nat → Nat → List Nat
  nonce : Nat

/-- `PrivateNodeHeader` of the old crate (`crates/fs/private/node.rs`
lines 33-38): bare namefilter, ratchet, inumber. -/
structure PrivateNodeHeader where
  bareName : Namefilter
  ratchet : Ratchet
  inumber : HashOutput
deriving DecidableEq

/-- `RatchetKey` (`crates/fs/private/directory.rs` lines 27-31): the
encrypted child ratchet key together with an optional bare copy. -/
structure RatchetKey where
  encrypted : List Nat
  bare : Option Key
deriving DecidableEq

/-- `PrivateRef` (`crates/fs/private/directory.rs` lines 33-38). -/
structure PrivateRef where
  saturatedNameHash : HashOutput
  contentKey : Key
  ratchetKey : Option RatchetKey
deriving DecidableEq

/-- `Metadata` with a unix-fs node kind, as far as the fix-up needs it. -/
structure Metadata where
  created : Int
deriving DecidableEq

/-- `PrivateDirectoryContent` (`directory.rs` lines 40-44). -/
structure PrivateDirectoryContent where
  metadata : Metadata
  entries : List (String × PrivateRef)
deriving DecidableEq

/-- `PrivateDirectory` (`directory.rs` lines 46-50); note the header is an
`Option` in this revision of the code. -/
structure PrivateDirectory where
  header : Option PrivateNodeHeader
  content : PrivateDirectoryContent
deriving DecidableEq

/-- `PathNodes<PrivateDirectory>`: parents paired with the segment each
one holds, plus the tail directory. -/
structure PrivatePathNodes where
  path : List (PrivateDirectory × String)
  tail : PrivateDirectory
deriving DecidableEq

/-- Errors surfaced by the old-crate directory operations. -/
inductive FsError where
  | missingHeader
deriving DecidableEq

/-- `BTreeMap::get` on the entries list. -/
def entriesGet (entries : List (String × PrivateRef)) (k : String) :
    Option PrivateRef :=
  entries.lookup k

/-- `BTreeMap::insert` on the entries list: replace in place or append. -/
def entriesInsert (k : String) (v : PrivateRef) :
    List (String × PrivateRef) → List (String × PrivateRef)
  | [] => [(k, v)]
  | (k', v') :: rest =>
    if k = k' then (k, v) :: rest else (k', v') :: entriesInsert k v rest

/-- `PrivateDirectory::generate_child_keys` (`directory.rs` lines
307-332): derive the child's bare ratchet key, hash it into the content
key, and encrypt it under the parent's ratchet key with a fresh nonce. -/
def generateChildKeys (c : Crypto) (parentRatchet childRatchet : Ratchet) :
    RatchetKey × Key :=
  let childRatchetKeyBare : Key := c.deriveKey childRatchet
  let childContentKey : Key := c.sha3 childRatchetKeyBare
  let childRatchetKeyEncrypted :=
    let parentRatchetKey : Key := c.deriveKey parentRatchet
    c.encrypt parentRatchetKey c.nonce childRatchetKeyBare
  (⟨childRatchetKeyEncrypted, some childRatchetKeyBare⟩, childContentKey)

/-- `PrivateDirectory::generate_child_private_ref` (`directory.rs` lines
278-305): requires both headers, hashes the child's saturated name, and
pairs it with the generated keys; `MissingHeader` otherwise. -/
def generateChildPrivateRef (c : Crypto)
    (parentHeader childHeader : Option PrivateNodeHeader) :
    Except FsError PrivateRef :=
  match parentHeader, childHeader with
  | some parentHeader, some childHeader =>
    let saturatedNameHash := c.sha3 (c.saturate childHeader.bareName)
    let (ratchetKey, contentKey) :=
      generateChildKeys c parentHeader.ratchet childHeader.ratchet
    .ok ⟨saturatedNameHash, contentKey, some ratchetKey⟩
  | _, _ => .error .missingHeader

/-- The loop body of `fix_up_path_nodes`, iterating the reversed path
(the recursive argument is `path_nodes.path.iter().rev()` already
reversed). For each parent: clone it, look up the segment's entry,
generate and insert a fresh child `PrivateRef` only when the entry is
missing (when the entry exists the clone is left unchanged — the looked-up
ref is cloned and discarded), and continue upward. The forest insertion
that the spec requires at this point (`hamt.set(...)`) is commented out in
the source (`directory.rs` lines 258-270, marked `TODO(appcypher)`), so
the `hamt` state of type `H` is threaded through untouched, exactly as the
`&mut HamtStore` parameter is never used by live code. -/
def fixUpGo {H : Type} (c : Crypto) :
    List (PrivateDirectory × String) → PrivateDirectory → H →
    Except FsError (PrivateDirectory × H)
  | [], workingDir, hamt => .ok (workingDir, hamt)
  | (dir, segment) :: rest, workingDir, hamt =>
    match entriesGet dir.content.entries segment with
    | none =>
      match generateChildPrivateRef c dir.header workingDir.header with
      | .error e => .error e
      | .ok privateRef =>
        fixUpGo c rest
          { dir with content := { dir.content with
              entries := entriesInsert segment privateRef dir.content.entries } }
          hamt
    | some _ => fixUpGo c rest dir hamt

/-- `PrivateDirectory::fix_up_path_nodes` (`directory.rs` lines 226-276):
early-return the tail when the path is empty, otherwise walk the parents
tail-first. -/
def fixUpPathNodes {H : Type} (c : Crypto) (pathNodes : PrivatePathNodes)
    (hamt : H) : Except FsError (PrivateDirectory × H) :=
  if pathNodes.path.isEmpty then .ok (pathNodes.tail, hamt)
  else fixUpGo c pathNodes.path.reverse pathNodes.tail hamt

/-- A concrete crypto instantiation for evaluating the fix-up. -/
def fixUpCrypto0 : Crypto :=
  { deriveKey := fun r => r.rev, sha3 := id, saturate := id,
    encrypt := fun _ _ _ => [], nonce := 0 }

/-- A concrete one-level path-nodes input: a root holding segment `a`
that resolves to a fresh tail directory. -/
def fixUpInput0 : PrivatePathNodes :=
  { path := [(⟨some ⟨0, ⟨0, 0⟩, 0⟩, ⟨⟨0⟩, []⟩⟩, "a")],
    tail := ⟨some ⟨1, ⟨1, 0⟩, 1⟩, ⟨⟨0⟩, []⟩⟩ }

end OldPriv

/-! ### Public directories (`wnfs/src/public/directory.rs`) -/

namespace Pub

/-- Content identifiers for the public tree, opaque naturals. -/
abbrev Cid := Nat

/-- Public metadata: creation and modification timestamps. -/
structure Metadata where
  created : Int
  modified : Int
deriving DecidableEq

/-- `Metadata::new(time)`. -/
def Metadata.new (time : Int) : Metadata := ⟨time, time⟩

/-- `Metadata::upsert_mtime(time)`. -/
def Metadata.upsertMtime (m : Metadata) (time : Int) : Metadata :=
  { m with modified := time }

/-- Modelled from the spec: `PublicFile` (`wnfs/src/public/file.rs` is not
among the given sources; spec §2 and the uses in `directory.rs`): the
`persisted_as` once-cell, metadata, the userland content CID, and the
previous-revision CIDs. -/
structure PublicFile where
  persistedAs : Option Cid
  metadata : Metadata
  userland : Cid
  previous : List Cid
deriving DecidableEq

mutual
/-- `PublicDirectory` (`directory.rs` lines 44-50): `persisted_as`
once-cell, metadata, the userland `BTreeMap<String, PublicLink>` (as an
association list), and the previous-revision CID set. -/
inductive PublicDirectory where
  | mk (persistedAs : Option Cid) (metadata : Metadata)
      (userland : List (String × PublicLink)) (previous : List Cid)

/-- Modelled from the spec: `PublicLink = Link<PublicNode>` (the `Link`
type of `wnfs-common` is not among the given sources): either a CID still
to be resolved against the block store, or an already decoded node. -/
inductive PublicLink where
  | encoded (cid : Cid)
  | decoded (node : PublicNode)

/-- Modelled from the spec: the `PublicNode` tagged union of
`wnfs/src/public/node.rs` (not among the given sources; the spec's
"tagged variant carrying both shapes"). -/
inductive PublicNode where
  | file (f : PublicFile)
  | dir (d : PublicDirectory)
end

/-- Field accessor for `PublicDirectory.persisted_as`. -/
def PublicDirectory.persistedAs : PublicDirectory → Option Cid
  | .mk p _ _ _ => p

/-- Field accessor for `PublicDirectory.metadata`. -/
def PublicDirectory.metadata : PublicDirectory → Metadata
  | .mk _ m _ _ => m

/-- Field accessor for `PublicDirectory.userland`. -/
def PublicDirectory.userland : PublicDirectory → List (String × PublicLink)
  | .mk _ _ u _ => u

/-- Field accessor for `PublicDirectory.previous`. -/
def PublicDirectory.previous : PublicDirectory → List Cid
  | .mk _ _ _ pr => pr

/-- Functional update of the userland field. -/
def PublicDirectory.withUserland :
    PublicDirectory → List (String × PublicLink) → PublicDirectory
  | .mk p m _ pr, u => .mk p m u pr

/-- `PublicDirectory::new(time)` (`directory.rs` lines 87-94). -/
def PublicDirectory.new (time : Int) : PublicDirectory :=
  .mk none (Metadata.new time) [] []

/-- `PublicFile::new(time, content_cid)` (modelled from the spec together
with the rest of `PublicFile`). -/
def PublicFile.new (time : Int) (contentCid : Cid) : PublicFile :=
  ⟨none, Metadata.new time, contentCid, []⟩

/-- The public-directory errors raised by the verified operations. -/
inductive FsError where
  | invalidPath
  | notFound
  | notAFile
  | directoryAlreadyExists
  | fileAlreadyExists
  | cidNotFound
deriving DecidableEq

/-- The block store as far as link resolution is concerned: deserialized
public nodes by CID (`store.get_deserializable`, resolution of `Encoded`
links). -/
def Store : Type := Cid → Option PublicNode

/-- `Link::resolve_value(store)`: a decoded link yields its node; an
encoded link is fetched from the store and deserialized, failing when the
block is absent. -/
def resolveLink (σ : Store) : PublicLink → Except FsError PublicNode
  | .decoded n => .ok n
  | .encoded c =>
    match σ c with
    | some n => .ok n
    | none => .error .cidNotFound

/-- `BTreeMap::get` on the userland. -/
def userlandGet (m : List (String × PublicLink)) (k : String) :
    Option PublicLink :=
  m.lookup k

/-- `BTreeMap::insert` on the userland: replace in place or append. -/
def userlandInsert (k : String) (v : PublicLink) :
    List (String × PublicLink) → List (String × PublicLink)
  | [] => [(k, v)]
  | (k', v') :: rest =>
    if k = k' then (k, v) :: rest else (k', v') :: userlandInsert k v rest

/-- `PublicDirectory::lookup_node(path_segment, store)` (`directory.rs`
lines 334-343). -/
def lookupNode (d : PublicDirectory) (segment : String) (σ : Store) :
    Except FsError (Option PublicNode) :=
  match userlandGet d.userland segment with
  | none => .ok none
  | some link =>
    match resolveLink σ link with
    | .error e => .error e
    | .ok n => .ok (some n)

/-- `PathNodes<PublicDirectory>`: parents paired with the segment each
holds, plus the tail. -/
structure PathNodes where
  path : List (PublicDirectory × String)
  tail : PublicDirectory

/-- `PathNodesResult` (complete / missing link / not a directory). -/
inductive PathNodesResult where
  | complete (pn : PathNodes)
  | missingLink (pn : PathNodes) (segment : String)
  | notADirectory (pn : PathNodes) (segment : String)

/-- The loop of `get_path_nodes` (`directory.rs` lines 172-210) with its
accumulated `path_nodes` vector made explicit. -/
def getPathNodesGo (σ : Store) :
    PublicDirectory → List String → List (PublicDirectory × String) →
    Except FsError PathNodesResult
  | d, [], acc => .ok (.complete ⟨acc, d⟩)
  | d, segment :: rest, acc =>
    match lookupNode d segment σ with
    | .error e => .error e
    | .ok (some (.dir d')) => getPathNodesGo σ d' rest (acc ++ [(d, segment)])
    | .ok (some _) => .ok (.notADirectory ⟨acc, d⟩ segment)
    | .ok none => .ok (.missingLink ⟨acc, d⟩ segment)

/-- `PublicDirectory::get_path_nodes` (`directory.rs` lines 172-210). -/
def getPathNodes (d : PublicDirectory) (segments : List String) (σ : Store) :
    Except FsError PathNodesResult :=
  getPathNodesGo σ d segments []

/-- `PublicDirectory::create_path_nodes` (`directory.rs` lines 154-167):
fresh directories for every segment plus a fresh tail. -/
def createPathNodes (pathSegments : List String) (time : Int) : PathNodes :=
  ⟨pathSegments.map fun s => (PublicDirectory.new time, s),
    PublicDirectory.new time⟩

/-- `PublicDirectory::get_or_create_path_nodes` (`directory.rs` lines
213-238): on a missing link, append the missing segment and a freshly
created chain for the remaining segments. -/
def getOrCreatePathNodes (d : PublicDirectory) (pathSegments : List String)
    (time : Int) (σ : Store) : Except FsError PathNodes :=
  match getPathNodes d pathSegments σ with
  | .error e => .error e
  | .ok (.complete pathNodes) => .ok pathNodes
  | .ok (.notADirectory _ _) => .error .invalidPath
  | .ok (.missingLink pathSoFar missingLink) =>
    let missingPath := pathSegments.drop (pathSoFar.path.length + 1)
    let missingPathNodes := createPathNodes missingPath time
    .ok ⟨pathSoFar.path ++ [(pathSoFar.tail, missingLink)] ++
        missingPathNodes.path,
      missingPathNodes.tail⟩

/-- `PublicDirectory::prepare_next_revision` (`directory.rs` lines
137-151): not yet persisted ⇒ unchanged; persisted as `cid` ⇒ reset the
once-cell and make `previous` the singleton `{cid}`. -/
def PublicDirectory.prepareNextRevision : PublicDirectory → PublicDirectory
  | .mk none m u pr => .mk none m u pr
  | .mk (some cid) m u _ => .mk none m u [cid]

/-- Modelled from the spec: `PublicFile::prepare_next_revision`
(`public/file.rs` is not among the sources; same copy-on-write pattern as
the directory, spec §4.5). -/
def PublicFile.prepareNextRevision (f : PublicFile) : PublicFile :=
  match f.persistedAs with
  | none => f
  | some cid => { f with persistedAs := none, previous := [cid] }

/-- The loop of `fix_up_path_nodes` (`directory.rs` lines 241-252) over
the already-reversed path: prepare each parent's next revision and insert
the updated child under its segment. -/
def fixUpGo : List (PublicDirectory × String) → PublicDirectory → PublicDirectory
  | [], workingDir => workingDir
  | (dir, segment) :: rest, workingDir =>
    let d := dir.prepareNextRevision
    let d := d.withUserland
      (userlandInsert segment (.decoded (.dir workingDir)) d.userland)
    fixUpGo rest d

/-- `PublicDirectory::fix_up_path_nodes` (`directory.rs` lines 241-252). -/
def fixUpPathNodes (pathNodes : PathNodes) : PublicDirectory :=
  fixUpGo pathNodes.path.reverse pathNodes.tail

/-- `utils::split_last` (`wnfs/src/utils.rs`, mirrored by the old crate's
`crates/fs/common/utils.rs`): the path split into everything before the
last segment and the last segment; `InvalidPath` on an empty path. -/
def splitLast : List String → Except FsError (List String × String)
  | [] => .error .invalidPath
  | [x] => .ok ([], x)
  | x :: y :: rest =>
    match splitLast (y :: rest) with
    | .ok (init, last) => .ok (x :: init, last)
    | .error e => .error e

/-- `PublicDirectory::read` (`directory.rs` lines 410-431): resolve the
parent path, require the tail entry to be a file, and return its userland
CID (the returned `root_dir` is the unchanged receiver and is omitted). -/
def read (root : PublicDirectory) (pathSegments : List String) (σ : Store) :
    Except FsError Cid :=
  match splitLast pathSegments with
  | .error e => .error e
  | .ok (path, filename) =>
    match getPathNodes root path σ with
    | .error e => .error e
    | .ok (.complete nodePath) =>
      match lookupNode nodePath.tail filename σ with
      | .error e => .error e
      | .ok (some (.file file)) => .ok file.userland
      | .ok (some (.dir _)) => .error .notAFile
      | .ok none => .error .notFound
    | .ok _ => .error .notFound

/-- `PublicDirectory::write` (`directory.rs` lines 459-498): open or
create the parent chain, prepare the parent's next revision, write the
file (updating an existing file, failing on a directory, creating a fresh
file otherwise), insert it, and fix up the path. Returns the new root. -/
def write (root : PublicDirectory) (pathSegments : List String)
    (contentCid : Cid) (time : Int) (σ : Store) :
    Except FsError PublicDirectory :=
  match splitLast pathSegments with
  | .error e => .error e
  | .ok (directoryPath, filename) =>
    match getOrCreatePathNodes root directoryPath time σ with
    | .error e => .error e
    | .ok directoryPathNodes =>
      let directory := directoryPathNodes.tail.prepareNextRevision
      match lookupNode directory filename σ with
      | .error e => .error e
      | .ok (some (.dir _)) => .error .directoryAlreadyExists
      | .ok fileBefore =>
        let file :=
          match fileBefore with
          | some (.file fb) =>
            let f := fb.prepareNextRevision
            { f with userland := contentCid, metadata := f.metadata.upsertMtime time }
          | _ => PublicFile.new time contentCid
        let directory := directory.withUserland
          (userlandInsert filename (.decoded (.file file)) directory.userland)
        .ok (fixUpPathNodes ⟨directoryPathNodes.path, directory⟩)

/-- A sequence of `write` operations applied in order; the whole sequence
fails as soon as one write fails. -/
def applyOps (σ : Store) :
    PublicDirectory → List (List String × Cid × Int) →
    Except FsError PublicDirectory
  | root, [] => .ok root
  | root, (p, c, t) :: rest =>
    match write root p c t σ with
    | .error e => .error e
    | .ok root' => applyOps σ root' rest

/-- The content of the last write to path `p` in the sequence, if any. -/
def lastWrite : List (List String × Cid × Int) → List String → Option Cid
  | [], _ => none
  | (q, c, _) :: rest, p =>
    match lastWrite rest p with
    | some c' => some c'
    | none => if q = p then some c else none

/-- Recursive descent formulation of `read` used by the proofs: walk the
full path, requiring directories on the inside and a file at the end. -/
def readAux (σ : Store) : PublicDirectory → List String → Except FsError Cid
  | _, [] => .error .invalidPath
  | d, segment :: rest =>
    match lookupNode d segment σ with
    | .error e => .error e
    | .ok nodeOpt =>
      match rest with
      | [] =>
        match nodeOpt with
        | some (.file file) => .ok file.userland
        | some (.dir _) => .error .notAFile
        | none => .error .notFound
      | _ :: _ =>
        match nodeOpt with
        | some (.dir d') => readAux σ d' rest
        | some (.file _) => .error .notFound
        | none => .error .notFound

/-- Top-down formulation of `fix_up_path_nodes` used by the proofs. -/
def fixDown : List (PublicDirectory × String) → PublicDirectory → PublicDirectory
  | [], tail => tail
  | (dir, segment) :: rest, tail =>
    let d := dir.prepareNextRevision
    d.withUserland
      (userlandInsert segment (.decoded (.dir (fixDown rest tail))) d.userland)

/-- Prepend an accumulated path prefix to a `PathNodesResult`. -/
def prependPath (acc : List (PublicDirectory × String)) :
    PathNodesResult → PathNodesResult
  | .complete ⟨path, tail⟩ => .complete ⟨acc ++ path, tail⟩
  | .missingLink ⟨path, tail⟩ s => .missingLink ⟨acc ++ path, tail⟩ s
  | .notADirectory ⟨path, tail⟩ s => .notADirectory ⟨acc ++ path, tail⟩ s

/-- The resolved-chain property of a complete path-nodes list: each parent
holds its segment, resolving to the next directory, ending at the tail. -/
inductive Chain (σ : Store) :
    PublicDirectory → List (PublicDirectory × String) → PublicDirectory → Prop
  | nil (d : PublicDirectory) : Chain σ d [] d
  | step {d d' tail : PublicDirectory} {s : String}
      {rest : List (PublicDirectory × String)} :
      lookupNode d s σ = .ok (some (.dir d')) → Chain σ d' rest tail →
      Chain σ d ((d, s) :: rest) tail

/-- The path shape produced by `get_or_create_path_nodes`: a resolved
chain, or a resolved chain up to a missing entry (everything below the
missing entry is freshly created and never consulted afterwards). -/
inductive WPath (σ : Store) :
    PublicDirectory → List (PublicDirectory × String) → PublicDirectory → Prop
  | nil (d : PublicDirectory) : WPath σ d [] d
  | step {d d' tail : PublicDirectory} {s : String}
      {rest : List (PublicDirectory × String)} :
      lookupNode d s σ = .ok (some (.dir d')) → WPath σ d' rest tail →
      WPath σ d ((d, s) :: rest) tail
  | missing {d tail : PublicDirectory} {s : String}
      {rest : List (PublicDirectory × String)} :
      lookupNode d s σ = .ok none → WPath σ d ((d, s) :: rest) tail

end Pub

/-!
### Revision history iteration (`crates/fs/private/previous.rs`)

`PrivateNodeOnPathHistory` walks a path's nodes backwards through their
skip-ratchet revisions. The skip-ratchet crate is external, so ratchets
and their `PreviousIterator` are modelled from the spec: a ratchet is a
seed plus a revision number, `inc` bumps the revision, and the previous
iterator between two ratchets of the same seed yields every strictly
earlier revision down to and including the past ratchet, newest first.
The private refs, forest lookups and node/directory structures follow
`crates/fs/private/node.rs` / `directory.rs`, with keys and hashes kept
abstract (a private ref is the pair of the node's name and its ratchet).
-/

namespace Hist

/-- Modelled from the spec: `skip_ratchet::Ratchet` (external crate): a
seed identifying the ratchet chain and a revision counter. -/
structure Ratchet where
  seed : Nat
  rev : Nat
deriving DecidableEq

/-- Modelled from the spec: `Ratchet::inc` advances one revision. -/
def Ratchet.inc (r : Ratchet) : Ratchet := ⟨r.seed, r.rev + 1⟩

/-- `PrivateNodeHeader` (`crates/fs/private/node.rs` lines 33-38) with the
bare name filter and inumber abstracted into one name and keys elided:
what remains is exactly what determines a private ref. -/
structure PrivateNodeHeader where
  name : Nat
  ratchet : Ratchet
deriving DecidableEq

/-- `PrivateRef` (`node.rs` lines 46-51): fully determined by the bare
name and the ratchet, so modelled as that pair. -/
abbrev PrivateRef := Nat × Ratchet

/-- `PrivateNodeHeader::get_private_ref` (`node.rs` lines 77-91). -/
def PrivateNodeHeader.getPrivateRef (h : PrivateNodeHeader) : PrivateRef :=
  (h.name, h.ratchet)

/-- `PrivateFile` of the history module: header plus content bytes. -/
structure PrivateFile where
  header : PrivateNodeHeader
  content : List Nat
deriving DecidableEq

/-- `PrivateDirectory`: header plus the entries map from path segments to
private refs (`crates/fs/private/directory.rs`). -/
structure PrivateDirectory where
  header : PrivateNodeHeader
  entries : List (String × PrivateRef)
deriving DecidableEq

/-- `PrivateNode` (`node.rs` lines 40-44). -/
inductive PrivateNode where
  | file (f : PrivateFile)
  | dir (d : PrivateDirectory)
deriving DecidableEq

/-- `PrivateNode::get_header` (`node.rs`). -/
def PrivateNode.header : PrivateNode → PrivateNodeHeader
  | .file f => f.header
  | .dir d => d.header

/-- The private forest as the history module sees it: revisions of nodes
stored under their private refs. -/
abbrev Forest := List (PrivateRef × PrivateNode)

/-- Modelled from the spec: `PrivateForest::get(private_ref, store)` as
used by `previous.rs` (absent revisions give `None`). -/
def fget : Forest → PrivateRef → Option PrivateNode
  | [], _ => none
  | (k, v) :: rest, r => if r = k then some v else fget rest r

/-- `PrivateDirectory::lookup_node(path_segment, ..)`
(`crates/fs/private/directory.rs` lines 457-470): resolve the entry's
private ref against the forest. -/
def lookupNode (d : PrivateDirectory) (seg : String) (forest : Forest) :
    Option PrivateNode :=
  match d.entries.lookup seg with
  | some ref => fget forest ref
  | none => none

/-- `PathNodes` of the private module (parents paired with segments plus
the tail). -/
structure HPathNodes where
  path : List (PrivateDirectory × String)
  tail : PrivateDirectory

/-- `PathNodesResult` of the private module. -/
inductive HPathNodesResult where
  | complete (pn : HPathNodes)
  | missingLink (pn : HPathNodes) (segment : String)
  | notADirectory (pn : HPathNodes) (segment : String)

/-- The loop of `PrivateDirectory::get_path_nodes`
(`crates/fs/private/directory.rs` lines 138-180), accumulator explicit. -/
def getPathNodesGo (forest : Forest) :
    PrivateDirectory → List String → List (PrivateDirectory × String) →
    HPathNodesResult
  | d, [], acc => .complete ⟨acc, d⟩
  | d, segment :: rest, acc =>
    match lookupNode d segment forest with
    | some (.dir d') => getPathNodesGo forest d' rest (acc ++ [(d, segment)])
    | some _ => .notADirectory ⟨acc, d⟩ segment
    | none => .missingLink ⟨acc, d⟩ segment

/-- `PrivateDirectory::get_path_nodes`. -/
def getPathNodes (d : PrivateDirectory) (segments : List String)
    (forest : Forest) : HPathNodesResult :=
  getPathNodesGo forest d segments []

/-- `slice::split_last` on the path: the initial segments and the last
one. -/
def splitLastH : List String → Option (List String × String)
  | [] => none
  | [x] => some ([], x)
  | x :: y :: rest =>
    match splitLastH (y :: rest) with
    | some (i, l) => some (x :: i, l)
    | none => none

/-- The history-iteration errors (`FsError` variants raised by
`previous.rs`). -/
inductive FsErr where
  | notFound
  | notADirectory
  | previousError
deriving DecidableEq

/-- Modelled from the spec: `PreviousIterator::new(past, recent, budget)`
(external skip-ratchet crate): fails unless both ratchets share a seed,
the past revision is not ahead of the recent one, and their distance fits
the discrepancy budget; otherwise yields the revisions strictly before
the recent one down to and including the past one, newest first. -/
def previousIteratorNew (old recent : Ratchet) (budget : Nat) :
    Except FsErr (List Ratchet) :=
  if old.seed = recent.seed ∧ old.rev ≤ recent.rev ∧
      recent.rev - old.rev ≤ budget then
    .ok ((List.range (recent.rev - old.rev)).map
      (fun i => ⟨recent.seed, recent.rev - 1 - i⟩))
  else .error .previousError

/-- `PrivateNodeHistory` (`previous.rs` lines 19-22): a node header and
the remaining ratchets of its previous-iterator. -/
structure PrivateNodeHistory where
  header : PrivateNodeHeader
  ratchets : List Ratchet
deriving DecidableEq

/-- `PrivateNodeHistory::from_header` (`previous.rs` lines 38-47). -/
def historyFromHeader (header : PrivateNodeHeader) (pastRatchet : Ratchet)
    (budget : Nat) : Except FsErr PrivateNodeHistory :=
  match previousIteratorNew pastRatchet header.ratchet budget with
  | .error e => .error e
  | .ok ratchets => .ok ⟨header, ratchets⟩

/-- `PrivateNodeHistory::of` (`previous.rs` lines 30-36). -/
def historyOf (node : PrivateNode) (pastRatchet : Ratchet) (budget : Nat) :
    Except FsErr PrivateNodeHistory :=
  historyFromHeader node.header pastRatchet budget

/-- `PrivateNodeHistory::previous_node` (`previous.rs` lines 49-61):
consume the next previous ratchet, rewind the header to it, and fetch
that revision from the forest; the mutated history is returned
alongside. -/
def previousNode (h : PrivateNodeHistory) (forest : Forest) :
    PrivateNodeHistory × Option PrivateNode :=
  match h.ratchets with
  | [] => (h, none)
  | r :: rest => (⟨⟨h.header.name, r⟩, rest⟩,
      fget forest (PrivateNodeHeader.getPrivateRef ⟨h.header.name, r⟩))

/-- `PrivateNodeHistory::previous_dir` (`previous.rs` lines 63-73). -/
def previousDir (h : PrivateNodeHistory) (forest : Forest) :
    PrivateNodeHistory × Option PrivateDirectory :=
  match previousNode h forest with
  | (h', some (.dir d)) => (h', some d)
  | (h', _) => (h', none)

/-- Modelled from the spec: `PrivateNode::search_latest` (the version of
`node.rs` matching `previous.rs` is not among the sources): starting from
the node's revision, step to the next revision while the forest has it
(fuelled by the forest size), and return that latest stored revision. -/
def searchLatestGo (forest : Forest) :
    Nat → PrivateNodeHeader → PrivateNodeHeader
  | 0, h => h
  | fuel + 1, h =>
    match fget forest (PrivateNodeHeader.getPrivateRef ⟨h.name, h.ratchet.inc⟩)
      with
    | some _ => searchLatestGo forest fuel ⟨h.name, h.ratchet.inc⟩
    | none => h

/-- Modelled from the spec: `search_latest` at the node level. -/
def searchLatestNode (n : PrivateNode) (forest : Forest) : PrivateNode :=
  match fget forest (PrivateNodeHeader.getPrivateRef
      (searchLatestGo forest forest.length n.header)) with
  | some latest => latest
  | none => n

/-- `PathSegmentHistory` (`previous.rs` lines 24-28). -/
structure PathSegmentHistory where
  dir : PrivateDirectory
  history : PrivateNodeHistory
  pathSegment : String
deriving DecidableEq

/-- `PrivateNodeOnPathHistory` (`previous.rs` lines 13-17): the ancestor
stack (index 0 = root, last = the target's parent) and the target's own
history. -/
structure PrivateNodeOnPathHistory where
  path : List PathSegmentHistory
  target : PrivateNodeHistory
deriving DecidableEq

/-- The `for (dir, path_segment) in path` loop of `previous_of`
(`previous.rs` lines 141-152): each ancestor gets a history whose
previous-iterator is empty (its own ratchet to itself). -/
def buildPath (budget : Nat) :
    List (PrivateDirectory × String) → Except FsErr (List PathSegmentHistory)
  | [] => .ok []
  | (dir, segment) :: rest =>
    match historyOf (.dir dir) dir.header.ratchet budget with
    | .error e => .error e
    | .ok h =>
      match buildPath budget rest with
      | .error e => .error e
      | .ok hs => .ok (⟨dir, h, segment⟩ :: hs)

/-- `PrivateNodeOnPathHistory::previous_of` (`previous.rs` lines 76-159):
resolve the path, seed the target's history from its own ratchet (after
an optional search for the latest revision), push every ancestor plus the
target's parent with empty histories, and give the root (index 0) the
past-to-current previous-iterator. The empty-`buildPath` arm is
unreachable (the parent entry is always appended) and models the
`path[0]` index panic as an error. -/
def previousOf (directory : PrivateDirectory) (pathSegments : List String)
    (searchLatest : Bool) (forest : Forest) (pastRatchet : Ratchet)
    (budget : Nat) : Except FsErr PrivateNodeOnPathHistory :=
  let newRatchet := directory.header.ratchet
  match splitLastH pathSegments with
  | none =>
    match historyOf (.dir directory) pastRatchet budget with
    | .error e => .error e
    | .ok target => .ok ⟨[], target⟩
  | some (initSegments, last) =>
    match getPathNodes directory initSegments forest with
    | .notADirectory _ _ => .error .notADirectory
    | .missingLink _ _ => .error .notFound
    | .complete pathNodes =>
      match lookupNode pathNodes.tail last forest with
      | none => .error .notFound
      | some target =>
        let targetLatest :=
          if searchLatest then searchLatestNode target forest else target
        match historyOf targetLatest target.header.ratchet budget with
        | .error e => .error e
        | .ok targetRatchets =>
          match buildPath budget
              (pathNodes.path ++ [(pathNodes.tail, last)]) with
          | .error e => .error e
          | .ok [] => .error .notFound
          | .ok (s0 :: srest) =>
            match previousIteratorNew pastRatchet newRatchet budget with
            | .error e => .error e
            | .ok ratchets0 =>
              .ok ⟨{ s0 with history := ⟨s0.history.header, ratchets0⟩ } :: srest,
                targetRatchets⟩

/-- The pop loop of `previous` (`previous.rs` lines 171-185), acting on
the reversed path (head = deepest ancestor): pop until an ancestor has a
previous revision, stacking the popped entries; the Bool tells whether
one was found before the stack emptied. -/
def popLoopRev (forest : Forest) :
    List PathSegmentHistory → List (PrivateDirectory × String) →
    List PathSegmentHistory × List (PrivateDirectory × String) × Bool
  | [], ws => ([], ws, false)
  | seg :: rest, ws =>
    match previousDir seg.history forest with
    | (h', some prevDir) =>
      ({ seg with dir := prevDir, history := h' } :: rest, ws, true)
    | (_, none) => popLoopRev forest rest (ws ++ [(seg.dir, seg.pathSegment)])

/-- The rebuild loop of `previous` (`previous.rs` lines 187-215): walk
the stacked entries, looking up each one's older revision under the
current deepest ancestor; a missing older directory ends the whole call
with `None` (Bool `false`). The empty-`getLast?` arm models the
`.unwrap()` panic and is unreachable from `previous`. -/
def rebuildLoop (forest : Forest) (budget : Nat) :
    List (PrivateDirectory × String) → List PathSegmentHistory →
    Except FsErr (List PathSegmentHistory × Bool)
  | [], path => .ok (path, true)
  | (directory, segment) :: rest, path =>
    match path.getLast? with
    | none => .error .notFound
    | some ancestor =>
      match lookupNode ancestor.dir ancestor.pathSegment forest with
      | some (.dir olderDirectory) =>
        match historyOf (.dir directory) olderDirectory.header.ratchet budget
          with
        | .error e => .error e
        | .ok dirHistory =>
          match previousDir dirHistory forest with
          | (h', some directoryPrev) =>
            rebuildLoop forest budget rest
              (path ++ [⟨directoryPrev, h', segment⟩])
          | (_, none) => .ok (path, false)
      | _ => .ok (path, false)

/-- `PrivateNodeOnPathHistory::previous` (`previous.rs` lines 161-236):
try the target's own history, else pop ancestors for one with a previous
revision (stack exhausted means `None`), rebuild the popped path below
it, re-seed the target history from the older parent's child entry, and
step it once. State threads through: the updated iterator is returned
with the result. -/
def previous (iter : PrivateNodeOnPathHistory) (forest : Forest)
    (budget : Nat) :
    Except FsErr (PrivateNodeOnPathHistory × Option PrivateNode) :=
  match previousNode iter.target forest with
  | (t', some node) => .ok (⟨iter.path, t'⟩, some node)
  | (t', none) =>
    match popLoopRev forest iter.path.reverse [] with
    | (_, _, false) => .ok (⟨[], t'⟩, none)
    | (revPath, ws, true) =>
      match rebuildLoop forest budget ws revPath.reverse with
      | .error e => .error e
      | .ok (path', false) => .ok (⟨path', t'⟩, none)
      | .ok (path', true) =>
        match path'.getLast? with
        | none => .error .notFound
        | some ancestor =>
          match lookupNode ancestor.dir ancestor.pathSegment forest with
          | none => .ok (⟨path', t'⟩, none)
          | some olderNode =>
            match historyFromHeader t'.header olderNode.header.ratchet budget
              with
            | .error e => .error e
            | .ok t2 =>
              match previousNode t2 forest with
              | (t3, res2) => .ok (⟨path', t3⟩, res2)

/-! #### The two-revision scenario

A file is written at path `f` below the root and then overwritten once:
the forest holds root revisions 0 (no entry), 1 (entry at file revision
0) and 2 (entry at file revision 1), and both file revisions. -/

/-- Root header at revision `i` (name 0, ratchet seed 0). -/
def hRootHdr (i : Nat) : PrivateNodeHeader := ⟨0, ⟨0, i⟩⟩

/-- File header at revision `j` (name 1, ratchet seed 1). -/
def hFileHdr (j : Nat) : PrivateNodeHeader := ⟨1, ⟨1, j⟩⟩

/-- File revision `j`, with content `[j]`. -/
def hFile (j : Nat) : PrivateNode := .file ⟨hFileHdr j, [j]⟩

/-- Root revision 0: the file does not exist yet. -/
def hRoot0 : PrivateDirectory := ⟨hRootHdr 0, []⟩

/-- Root revision 1: entry `f` at file revision 0. -/
def hRoot1 : PrivateDirectory := ⟨hRootHdr 1, [("f", (1, ⟨1, 0⟩))]⟩

/-- Root revision 2: entry `f` at file revision 1. -/
def hRoot2 : PrivateDirectory := ⟨hRootHdr 2, [("f", (1, ⟨1, 1⟩))]⟩

/-- The forest holding all five persisted revisions of the scenario. -/
def hForest : Forest :=
  [((0, ⟨0, 0⟩), .dir hRoot0), ((0, ⟨0, 1⟩), .dir hRoot1),
    ((0, ⟨0, 2⟩), .dir hRoot2), ((1, ⟨1, 0⟩), hFile 0),
    ((1, ⟨1, 1⟩), hFile 1)]

end Hist

theorem pow_mod_pow_mod (x a b n : Nat) :
    (x ^ a % n) ^ b % n = x ^ (a * b) % n := by
  rw [← Nat.pow_mod, ← pow_mul]

/-- C6: adding two name segments to the empty accumulator commutes:
`empty.add(s1).add(s2) = empty.add(s2).add(s1)`, where equality is equality
of the reduced numeric state (which is exactly what the source `PartialEq`
compares). This holds for every setup, with no primality assumptions. -/
theorem nameAccumulator_add_comm (setup : AccumulatorSetup)
    (s1 s2 : NameSegment) :
    ((NameAccumulator.empty setup).add s1 setup).add s2 setup =
      ((NameAccumulator.empty setup).add s2 setup).add s1 setup := by
  simp only [NameAccumulator.empty, NameAccumulator.add, NameAccumulator.mk.injEq]
  rw [pow_mod_pow_mod, pow_mod_pow_mod, Nat.mul_comm]

/-- C10: `Name` equality is not extensional in the accumulator denoted.
Conjuncts: (1) when neither side has a cached accumulator and at least one
has a non-empty segment list, `eq` is componentwise comparison of
`relative_to` and `segments`; (2) two concrete `Name`s with the same
`as_accumulator` (same segments in a different order) compare unequal;
(3) when both sides carry a cached accumulator, `eq` coincides with
equality of `as_accumulator`; (4) likewise when both segment lists are
empty (and nothing is cached). -/
theorem name_eq_not_extensional :
    (∀ n1 n2 : Name, n1.accumulated = none → n2.accumulated = none →
      (n1.segments ≠ [] ∨ n2.segments ≠ []) →
      (n1.eqImpl n2 = true ↔
        n1.relativeTo = n2.relativeTo ∧ n1.segments = n2.segments)) ∧
    (∃ (setup : AccumulatorSetup) (n1 n2 : Name),
      n1.asAccumulator setup = n2.asAccumulator setup ∧ n1.eqImpl n2 = false) ∧
    (∀ (n1 n2 : Name) (setup : AccumulatorSetup),
      n1.accumulated.isSome → n2.accumulated.isSome →
      (n1.eqImpl n2 = true ↔ n1.asAccumulator setup = n2.asAccumulator setup)) ∧
    (∀ (n1 n2 : Name) (setup : AccumulatorSetup),
      n1.accumulated = none → n2.accumulated = none →
      n1.segments = [] → n2.segments = [] →
      (n1.eqImpl n2 = true ↔ n1.asAccumulator setup = n2.asAccumulator setup)) := by
  refine ⟨?_, ?_, ?_, ?_⟩
  · intro n1 n2 h1 h2 hne
    simp only [Name.eqImpl, h1, h2, Option.none_orElse]
    rcases Decidable.em (n1.segments = []) with e1 | e1 <;>
      rcases Decidable.em (n2.segments = []) with e2 | e2 <;>
        simp_all [List.isEmpty_iff]
  · refine ⟨⟨5, 2⟩, ⟨⟨2⟩, [⟨2⟩, ⟨3⟩], none⟩, ⟨⟨2⟩, [⟨3⟩, ⟨2⟩], none⟩, ?_, ?_⟩ <;> decide
  · intro n1 n2 setup h1 h2
    rcases Option.isSome_iff_exists.mp h1 with ⟨a1, ha1⟩
    rcases Option.isSome_iff_exists.mp h2 with ⟨a2, ha2⟩
    simp [Name.eqImpl, Name.asAccumulator, ha1, ha2, Option.orElse]
  · intro n1 n2 setup h1 h2 hs1 hs2
    simp [Name.eqImpl, Name.asAccumulator, h1, h2, hs1, hs2, Option.orElse]

/-- Witness for C10 at concrete inputs: two uncached names with segment
lists `[2,3]` and `[3,2]` relative to the same base fold to the same
accumulator under the setup `(modulus 5, generator 2)`, yet their
componentwise equality is false. -/
theorem name_eq_not_extensional_witness :
    (Name.eqImpl ⟨⟨2⟩, [⟨2⟩, ⟨3⟩], none⟩ ⟨⟨2⟩, [⟨3⟩, ⟨2⟩], none⟩ = true ↔
      ((⟨⟨2⟩, [⟨2⟩, ⟨3⟩], none⟩ : Name).relativeTo =
          (⟨⟨2⟩, [⟨3⟩, ⟨2⟩], none⟩ : Name).relativeTo ∧
        (⟨⟨2⟩, [⟨2⟩, ⟨3⟩], none⟩ : Name).segments =
          (⟨⟨2⟩, [⟨3⟩, ⟨2⟩], none⟩ : Name).segments)) :=
  name_eq_not_extensional.1 ⟨⟨2⟩, [⟨2⟩, ⟨3⟩], none⟩ ⟨⟨2⟩, [⟨3⟩, ⟨2⟩], none⟩
    rfl rfl (Or.inl (by decide))

namespace Blockstore

theorem lookup_mem {α β : Type} [DecidableEq α] :
    ∀ {l : List (α × β)} {k : α} {v : β}, l.lookup k = some v → (k, v) ∈ l := by
  intro l
  induction l with
  | nil => intro k v h; simp [List.lookup] at h
  | cons p rest ih =>
    intro k v h
    rcases p with ⟨a, b⟩
    by_cases hk : k = a
    · subst hk
      simp [List.lookup] at h
      simp [h]
    · have hbeq : (k == a) = false := by simp [hk]
      simp only [List.lookup, hbeq] at h
      exact List.mem_cons_of_mem _ (ih h)

/-- C8: `put_block` enforces the block size limit and nothing else.
For every store, byte string and codec: the call fails iff the byte string
exceeds 262,144 bytes; on success the returned CID is v1, carries the
SHA2-256 multihash of the bytes, and the named codec; the store afterwards
maps that CID to exactly those bytes; and — assuming the hash is
collision-free and all existing entries are content-addressed — every
previously retrievable block is still retrievable unchanged (the store is
grow-only), and well-formedness is preserved. -/
theorem putBlock_size_limit_and_grow_only
    (sha256 : Bytes → Bytes) (s : MemoryBlockStore) (bytes : Bytes) (codec : Nat)
    (hinj : ∀ b1 b2, sha256 b1 = sha256 b2 → b1 = b2)
    (hwf : WellFormed sha256 s) :
    ((∃ e, putBlock sha256 s bytes codec = .error e) ↔
      bytes.length > MAX_BLOCK_SIZE) ∧
    (∀ s' cid, putBlock sha256 s bytes codec = .ok (s', cid) →
      cid.version = 1 ∧ cid.codec = codec ∧ cid.multihash = sha256 bytes ∧
      getBlock s' cid = .ok bytes ∧
      (∀ c b, getBlock s c = .ok b → getBlock s' c = .ok b) ∧
      WellFormed sha256 s') := by
  constructor
  · constructor
    · rintro ⟨e, he⟩
      by_contra hgt
      simp [putBlock, hgt] at he
    · intro hgt
      refine ⟨.maximumBlockSizeExceeded bytes.length, ?_⟩
      simp [putBlock, hgt]
  · intro s' cid h
    rcases Decidable.em (bytes.length > MAX_BLOCK_SIZE) with hgt | hgt
    · simp [putBlock, hgt] at h
    · simp only [putBlock, hgt, if_false, Except.ok.injEq, Prod.mk.injEq] at h
      obtain ⟨hs', hcid⟩ := h
      subst hs' hcid
      refine ⟨rfl, rfl, rfl, ?_, ?_, ?_⟩
      · simp [getBlock, List.lookup]
      · intro c b hget
        simp only [getBlock] at hget ⊢
        rcases hlk : s.map.lookup c with _ | b0
        · rw [hlk] at hget
          exact absurd hget (by simp)
        · rw [hlk] at hget
          replace hget : b0 = b := by simpa using hget
          subst hget
          by_cases hc :
              c = ({ version := 1, codec := codec, multihash := sha256 bytes } : Cid)
          · have hmem : (c, b0) ∈ s.map := lookup_mem hlk
            have hb : b0 = bytes := hinj _ _ (by rw [← hwf _ hmem, hc])
            subst hb
            simp [List.lookup, hc]
          · have hbeq :
                (c == ({ version := 1, codec := codec, multihash := sha256 bytes } : Cid))
                  = false := by simp [hc]
            simp [List.lookup, hbeq, hlk]
      · intro p hp
        rcases List.mem_cons.mp hp with hp | hp
        · subst hp; rfl
        · exact hwf p hp

/-- Witness for C8 at a concrete input: with the identity as a (trivially
injective) stand-in hash, putting `[1,2,3]` with codec `85` into the empty
store succeeds and the resulting store retrieves the bytes at the returned
CID. -/
theorem putBlock_witness :
    WellFormed (fun b => b) ⟨[]⟩ ∧
    getBlock ⟨[(⟨1, 85, [1, 2, 3]⟩, [1, 2, 3])]⟩ ⟨1, 85, [1, 2, 3]⟩ =
      .ok [1, 2, 3] :=
  ⟨fun p hp => absurd hp (by simp),
    ((putBlock_size_limit_and_grow_only (fun b => b) ⟨[]⟩ [1, 2, 3] 85
        (fun _ _ h => h) (fun p hp => absurd hp (by simp))).2
      ⟨[(⟨1, 85, [1, 2, 3]⟩, [1, 2, 3])]⟩ ⟨1, 85, [1, 2, 3]⟩ (by rfl)).2.2.2.1⟩

end Blockstore

namespace Forest

theorem setUnion_nil_right (xs : List Nat) : setUnion xs [] = xs := by
  cases xs <;> simp [setUnion]

theorem setUnion_comm (a b : List Nat) : setUnion a b = setUnion b a := by
  induction a, b using setUnion.induct with
  | case1 ys => simp [setUnion, setUnion_nil_right]
  | case2 xs h => simp [setUnion, setUnion_nil_right]
  | case3 x xs y ys hlt ih =>
    have hnlt : ¬ y < x := Nat.lt_asymm hlt
    rw [setUnion, if_pos hlt, setUnion, if_neg hnlt, if_pos hlt, ih]
  | case4 x xs y ys hnlt hlt ih =>
    have hnlt2 : ¬ x < y := hnlt
    rw [setUnion, if_neg hnlt2, if_pos hlt, setUnion, if_pos hlt, ih]
  | case5 x xs y ys hnlt1 hnlt2 ih =>
    have hxy : x = y := Nat.le_antisymm (Nat.le_of_not_lt hnlt2) (Nat.le_of_not_lt hnlt1)
    subst hxy
    rw [setUnion, if_neg hnlt1, if_neg hnlt2, setUnion, if_neg hnlt1, if_neg hnlt2, ih]

theorem setUnion_self (s : List Nat) : setUnion s s = s := by
  induction s with
  | nil => simp [setUnion]
  | cons x xs ih =>
    rw [setUnion, if_neg (Nat.lt_irrefl x), if_neg (Nat.lt_irrefl x), ih]

theorem nodeMerge_nil_right (xs : List (Nat × List Nat)) : nodeMerge xs [] = xs := by
  cases xs <;> simp [nodeMerge]

theorem nodeMerge_comm (a b : List (Nat × List Nat)) :
    nodeMerge a b = nodeMerge b a := by
  induction a, b using nodeMerge.induct with
  | case1 ys => simp [nodeMerge, nodeMerge_nil_right]
  | case2 xs h => simp [nodeMerge, nodeMerge_nil_right]
  | case3 k1 v1 xs k2 v2 ys hlt ih =>
    have hnlt : ¬ k2 < k1 := Nat.lt_asymm hlt
    rw [nodeMerge, if_pos hlt, nodeMerge, if_neg hnlt, if_pos hlt, ih]
  | case4 k1 v1 xs k2 v2 ys hnlt hlt ih =>
    have hnlt2 : ¬ k1 < k2 := hnlt
    rw [nodeMerge, if_neg hnlt2, if_pos hlt, nodeMerge, if_pos hlt, ih]
  | case5 k1 v1 xs k2 v2 ys hnlt1 hnlt2 ih =>
    have hk : k1 = k2 := Nat.le_antisymm (Nat.le_of_not_lt hnlt2) (Nat.le_of_not_lt hnlt1)
    subst hk
    rw [nodeMerge, if_neg hnlt1, if_neg hnlt2, nodeMerge, if_neg hnlt1, if_neg hnlt2,
      ih, setUnion_comm]

theorem nodeMerge_self (a : List (Nat × List Nat)) : nodeMerge a a = a := by
  induction a with
  | nil => simp [nodeMerge]
  | cons p xs ih =>
    rcases p with ⟨k, v⟩
    rw [nodeMerge, if_neg (Nat.lt_irrefl k), if_neg (Nat.lt_irrefl k), ih, setUnion_self]

/-- C4: `PrivateForest` merge is commutative and idempotent. For forests
carrying the same HAMT version (all constructible forests carry
`HAMT_VERSION`; `merge` copies `self.version` into the result),
`merge(a, b) = merge(b, a)` — values at colliding keys are combined by CID
set union — and `merge(a, a) = a`, with no assumptions on the contents. -/
theorem forest_merge_comm_idem :
    (∀ a b : Hamt, a.version = b.version → a.merge b = b.merge a) ∧
    (∀ a : Hamt, a.merge a = a) := by
  constructor
  · intro a b hv
    simp [Hamt.merge, hv, nodeMerge_comm a.root b.root]
  · intro a
    simp [Hamt.merge, nodeMerge_self]

/-- Witness for C4 at concrete forests sharing version 0.2.0: merging in
either order gives the same forest, and self-merge is the identity. -/
theorem forest_merge_comm_idem_witness :
    (Hamt.merge ⟨⟨0, 2, 0⟩, [(1, [10, 11])]⟩ ⟨⟨0, 2, 0⟩, [(1, [11, 12]), (2, [20])]⟩ =
      Hamt.merge ⟨⟨0, 2, 0⟩, [(1, [11, 12]), (2, [20])]⟩ ⟨⟨0, 2, 0⟩, [(1, [10, 11])]⟩) ∧
    Hamt.merge ⟨⟨0, 2, 0⟩, [(1, [10, 11])]⟩ ⟨⟨0, 2, 0⟩, [(1, [10, 11])]⟩ =
      ⟨⟨0, 2, 0⟩, [(1, [10, 11])]⟩ :=
  ⟨forest_merge_comm_idem.1 ⟨⟨0, 2, 0⟩, [(1, [10, 11])]⟩
      ⟨⟨0, 2, 0⟩, [(1, [11, 12]), (2, [20])]⟩ rfl,
    forest_merge_comm_idem.2 ⟨⟨0, 2, 0⟩, [(1, [10, 11])]⟩⟩

end Forest

namespace Priv

/-- C3: `prepare_next_revision` follows the copy-on-write revision
protocol. For a `PrivateFile`: (1) with `persisted_as = None` the node is
returned logically unchanged; (2) with `persisted_as = Some c` the result
has `previous` exactly the singleton `{(1, encrypt(c, temporal_key))}`
(the key derived from the pre-advance ratchet), a cleared `persisted_as`,
the ratchet advanced exactly one step, and unchanged name, inumber,
metadata and content; (3) consequently a second call without an
intervening `store` is a no-op: twice equals once. For a
`PublicDirectory` (which has no ratchet): (4) with `persisted_as = None`
the directory is returned unchanged; (5) with `persisted_as = Some c` the
result has `previous = {c}`, a cleared `persisted_as`, and unchanged
metadata and userland; (6) twice equals once. -/
theorem prepareNextRevision_copy_on_write :
    (∀ f : PrivateFile, f.content.persistedAs = none →
      f.prepareNextRevision = f) ∧
    (∀ (f : PrivateFile) (c : Cid), f.content.persistedAs = some c →
      (f.prepareNextRevision.content.previous =
          [(1, EncryptedCid.fromValue c f.header.deriveTemporalKey)] ∧
        f.prepareNextRevision.content.persistedAs = none ∧
        f.prepareNextRevision.header.ratchet = f.header.ratchet.inc ∧
        f.prepareNextRevision.header.name = f.header.name ∧
        f.prepareNextRevision.header.inumber = f.header.inumber ∧
        f.prepareNextRevision.content.metadata = f.content.metadata ∧
        f.prepareNextRevision.content.content = f.content.content)) ∧
    (∀ f : PrivateFile,
      f.prepareNextRevision.prepareNextRevision = f.prepareNextRevision) ∧
    (∀ d : Pub.PublicDirectory, d.persistedAs = none →
      d.prepareNextRevision = d) ∧
    (∀ (d : Pub.PublicDirectory) (c : Pub.Cid), d.persistedAs = some c →
      (d.prepareNextRevision.previous = [c] ∧
        d.prepareNextRevision.persistedAs = none ∧
        d.prepareNextRevision.metadata = d.metadata ∧
        d.prepareNextRevision.userland = d.userland)) ∧
    (∀ d : Pub.PublicDirectory,
      d.prepareNextRevision.prepareNextRevision = d.prepareNextRevision) := by
  refine ⟨?_, ?_, ?_, ?_, ?_, ?_⟩
  · intro f h
    simp [PrivateFile.prepareNextRevision, h]
  · intro f c h
    simp [PrivateFile.prepareNextRevision, h, PrivateNodeHeader.advanceRatchet]
  · intro f
    rcases h : f.content.persistedAs with _ | c
    · simp [PrivateFile.prepareNextRevision, h]
    · have h2 : f.prepareNextRevision.content.persistedAs = none := by
        simp [PrivateFile.prepareNextRevision, h]
      generalize f.prepareNextRevision = g at h2 ⊢
      simp [PrivateFile.prepareNextRevision, h2]
  · intro d h
    rcases d with ⟨p, m, u, pr⟩
    cases p with
    | none => rfl
    | some c => simp [Pub.PublicDirectory.persistedAs] at h
  · intro d c h
    rcases d with ⟨p, m, u, pr⟩
    cases p with
    | none => simp [Pub.PublicDirectory.persistedAs] at h
    | some c2 =>
      have hc : c2 = c := by
        simpa [Pub.PublicDirectory.persistedAs] using h
      subst hc
      exact ⟨rfl, rfl, rfl, rfl⟩
  · intro d
    rcases d with ⟨p, m, u, pr⟩
    cases p <;> rfl

/-- Witness for C3 at a concrete file: a persisted file (with
`persisted_as = some 7`) gets the expected singleton previous link,
cleared `persisted_as`, and a ratchet advanced from revision 4 to 5. -/
theorem prepareNextRevision_witness :
    (PrivateFile.prepareNextRevision
        ⟨⟨⟨⟨1⟩, [], none⟩, ⟨3⟩, ⟨2, 4⟩⟩,
          ⟨some 7, [], ⟨0, 0⟩, .inline [9]⟩⟩).content.previous =
        [(1, EncryptedCid.fromValue 7 (Ratchet.deriveKey ⟨2, 4⟩))] ∧
      (PrivateFile.prepareNextRevision
        ⟨⟨⟨⟨1⟩, [], none⟩, ⟨3⟩, ⟨2, 4⟩⟩,
          ⟨some 7, [], ⟨0, 0⟩, .inline [9]⟩⟩).header.ratchet = ⟨2, 5⟩ :=
  ⟨((prepareNextRevision_copy_on_write.2.1
      ⟨⟨⟨⟨1⟩, [], none⟩, ⟨3⟩, ⟨2, 4⟩⟩, ⟨some 7, [], ⟨0, 0⟩, .inline [9]⟩⟩ 7 rfl)).1,
    ((prepareNextRevision_copy_on_write.2.1
      ⟨⟨⟨⟨1⟩, [], none⟩, ⟨3⟩, ⟨2, 4⟩⟩, ⟨some 7, [], ⟨0, 0⟩, .inline [9]⟩⟩ 7 rfl)).2.2.1⟩

theorem lookup_rootInsert_self (k : Nat) (v : List Cid)
    (m : List (Nat × List Cid)) : (rootInsert k v m).lookup k = some v := by
  induction m with
  | nil => simp [rootInsert, List.lookup]
  | cons p rest ih =>
    rcases p with ⟨k', v'⟩
    by_cases hk : k = k'
    · simp [rootInsert, hk, List.lookup]
    · have hbeq : (k == k') = false := by simp [hk]
      simp [rootInsert, hk, List.lookup, hbeq, ih]

theorem lookup_rootInsert_ne (k k2 : Nat) (v : List Cid)
    (m : List (Nat × List Cid)) (hne : k2 ≠ k) :
    (rootInsert k v m).lookup k2 = m.lookup k2 := by
  induction m with
  | nil =>
    have hbeq : (k2 == k) = false := by simp [hne]
    simp [rootInsert, List.lookup, hbeq]
  | cons p rest ih =>
    rcases p with ⟨k', v'⟩
    by_cases hk : k = k'
    · subst hk
      have hbeq : (k2 == k) = false := by simp [hne]
      simp [rootInsert, List.lookup, hbeq]
    · simp only [rootInsert, if_neg hk]
      by_cases hk2 : k2 = k'
      · simp [List.lookup, hk2]
      · have hbeq : (k2 == k') = false := by simp [hk2]
        simp [List.lookup, hbeq, ih]

theorem lookup_isSome_of_mem {α β : Type} [DecidableEq α]
    {l : List (α × β)} {k : α} {v : β} (h : (k, v) ∈ l) :
    (l.lookup k).isSome := by
  induction l with
  | nil => simp at h
  | cons p rest ih =>
    rcases p with ⟨a, b⟩
    by_cases hk : k = a
    · subst hk
      simp [List.lookup]
    · have hbeq : (k == a) = false := by simp [hk]
      rcases List.mem_cons.mp h with h | h
      · exact absurd (congrArg Prod.fst h) hk
      · simp [List.lookup, hbeq, ih h]

theorem shardSlice_eq (content : List Nat) (j : Nat) :
    shardSlice content j =
      (content.drop (j * MAX_BLOCK_CONTENT_SIZE)).take MAX_BLOCK_CONTENT_SIZE := by
  rw [shardSlice]
  have htake : content.take (min content.length ((j + 1) * MAX_BLOCK_CONTENT_SIZE)) =
      content.take ((j + 1) * MAX_BLOCK_CONTENT_SIZE) := by
    rcases le_total content.length ((j + 1) * MAX_BLOCK_CONTENT_SIZE) with h | h
    · rw [min_eq_left h, List.take_of_length_le (le_refl _), List.take_of_length_le h]
    · rw [min_eq_right h]
  rw [htake, List.drop_take]
  congr 1
  have : (j + 1) * MAX_BLOCK_CONTENT_SIZE =
      j * MAX_BLOCK_CONTENT_SIZE + MAX_BLOCK_CONTENT_SIZE := by ring
  omega

theorem shardSlice_length_le (content : List Nat) (j : Nat) :
    (shardSlice content j).length ≤ MAX_BLOCK_CONTENT_SIZE := by
  rw [shardSlice_eq]
  exact List.length_take_le _ _

theorem blockCount_mul_ge (len : Nat) :
    len ≤ blockCountOf len * MAX_BLOCK_CONTENT_SIZE := by
  cases len with
  | zero => simp [blockCountOf]
  | succ l =>
    rw [show blockCountOf (l + 1) = l / MAX_BLOCK_CONTENT_SIZE + 1 from rfl,
      show MAX_BLOCK_CONTENT_SIZE = 262116 from rfl]
    omega

theorem blockCountOf_eq (len : Nat) :
    blockCountOf len =
      (len + MAX_BLOCK_CONTENT_SIZE - 1) / MAX_BLOCK_CONTENT_SIZE := by
  cases len with
  | zero => rfl
  | succ l =>
    rw [show blockCountOf (l + 1) = l / MAX_BLOCK_CONTENT_SIZE + 1 from rfl,
      show l + 1 + MAX_BLOCK_CONTENT_SIZE - 1 = l + MAX_BLOCK_CONTENT_SIZE
        from by rw [show MAX_BLOCK_CONTENT_SIZE = 262116 from rfl]; omega,
      Nat.add_div_right _ (by rw [show MAX_BLOCK_CONTENT_SIZE = 262116 from rfl]; omega)]

theorem chunks_flatten (content : List Nat) :
    ∀ (n k : Nat), blockCountOf content.length - k = n →
      ((List.range' k n).map (shardSlice content)).flatten =
        content.drop (k * MAX_BLOCK_CONTENT_SIZE) := by
  intro n
  induction n with
  | zero =>
    intro k hk
    have hlen : content.length ≤ k * MAX_BLOCK_CONTENT_SIZE := by
      have h1 := blockCount_mul_ge content.length
      have h2 : blockCountOf content.length ≤ k := by omega
      calc content.length ≤ blockCountOf content.length * MAX_BLOCK_CONTENT_SIZE := h1
        _ ≤ k * MAX_BLOCK_CONTENT_SIZE := Nat.mul_le_mul_right _ h2
    simp [List.drop_eq_nil_of_le hlen]
  | succ n ih =>
    intro k hk
    rw [List.range'_succ, List.map_cons, List.flatten_cons, ih (k + 1) (by omega),
      shardSlice_eq]
    have harith : (k + 1) * MAX_BLOCK_CONTENT_SIZE =
        k * MAX_BLOCK_CONTENT_SIZE + MAX_BLOCK_CONTENT_SIZE := by ring
    have hdrop : content.drop ((k + 1) * MAX_BLOCK_CONTENT_SIZE) =
        (content.drop (k * MAX_BLOCK_CONTENT_SIZE)).drop MAX_BLOCK_CONTENT_SIZE := by
      rw [harith, ← List.drop_drop]
    rw [hdrop, List.take_append_drop]

theorem prepareBlocks_spec (fc : FileCrypto) (key : SnapshotKey)
    (content : List Nat) (revName : NameAccumulator) (setup : AccumulatorSetup) :
    ∀ (n i : Nat) (forest : PrivateForest) (store : RawBlockStore),
      (∀ j, i ≤ j → j < i + n →
        forest.root.lookup (blockLabelHash fc key setup revName j) = none) →
      (∀ j k, i ≤ j → j < i + n → i ≤ k → k < i + n →
        blockLabelHash fc key setup revName j =
          blockLabelHash fc key setup revName k → j = k) →
      ∃ (forest' : PrivateForest) (store' : RawBlockStore),
        prepareBlocks fc key content revName setup i n forest store =
          .ok (forest', store') ∧
        forest'.setup = forest.setup ∧
        (∀ j, i ≤ j → j < i + n →
          forest'.root.lookup (blockLabelHash fc key setup revName j) =
            some [shardCid fc key content j]) ∧
        (∀ hx, (∀ j, i ≤ j → j < i + n →
            hx ≠ blockLabelHash fc key setup revName j) →
          forest'.root.lookup hx = forest.root.lookup hx) ∧
        (∀ j, i ≤ j → j < i + n →
          (shardCid fc key content j, shardCt key content j) ∈ store'.map) ∧
        (∀ p, p ∈ store.map → p ∈ store'.map) ∧
        (∀ p, p ∈ store'.map → p ∈ store.map ∨
          ∃ j, i ≤ j ∧ j < i + n ∧
            p = (shardCid fc key content j, shardCt key content j)) := by
  intro n
  induction n with
  | zero =>
    intro i forest store hfresh hdist
    refine ⟨forest, store, by simp [prepareBlocks], rfl, ?_, ?_, ?_, ?_, ?_⟩
    · intro j h1 h2; omega
    · intro hx _; rfl
    · intro j h1 h2; omega
    · intro p hp; exact hp
    · intro p hp; exact Or.inl hp
  | succ n ih =>
    intro i forest store hfresh hdist
    have hsize :
        ¬ ((SnapshotKey.encrypt key (shardSlice content i)).length > MAX_BLOCK_SIZE) := by
      have hle := shardSlice_length_le content i
      simp only [SnapshotKey.encrypt, Ciphertext.length, NONCE_SIZE,
        AUTHENTICATION_TAG_SIZE, MAX_BLOCK_SIZE, MAX_BLOCK_CONTENT_SIZE] at hle ⊢
      omega
    have hputb :
        putBlockRaw fc.cidOf store (SnapshotKey.encrypt key (shardSlice content i)) =
          .ok (⟨(shardCid fc key content i, shardCt key content i) :: store.map⟩,
            shardCid fc key content i) := by
      unfold putBlockRaw
      rw [if_neg hsize]
      rfl
    have hfi : forest.root.lookup (blockLabelHash fc key setup revName i) = none :=
      hfresh i (le_refl i) (by omega)
    have hpute :
        forest.putEncrypted fc.sha3acc (createBlockLabel fc key i revName setup)
          [shardCid fc key content i] =
        ⟨forest.setup, rootInsert (blockLabelHash fc key setup revName i)
          [shardCid fc key content i] forest.root⟩ := by
      rw [PrivateForest.putEncrypted]
      rw [show fc.sha3acc (createBlockLabel fc key i revName setup).state =
        blockLabelHash fc key setup revName i from rfl]
      rw [hfi]
      simp [Forest.setUnion]
    have hfresh1 : ∀ j, i + 1 ≤ j → j < i + 1 + n →
        (rootInsert (blockLabelHash fc key setup revName i)
            [shardCid fc key content i] forest.root).lookup
          (blockLabelHash fc key setup revName j) = none := by
      intro j h1 h2
      have hne : blockLabelHash fc key setup revName j ≠
          blockLabelHash fc key setup revName i := by
        intro he
        have := hdist j i (by omega) (by omega) (le_refl i) (by omega) he
        omega
      rw [lookup_rootInsert_ne _ _ _ _ hne]
      exact hfresh j (by omega) (by omega)
    have hdist1 : ∀ j k, i + 1 ≤ j → j < i + 1 + n → i + 1 ≤ k → k < i + 1 + n →
        blockLabelHash fc key setup revName j =
          blockLabelHash fc key setup revName k → j = k := by
      intro j k h1 h2 h3 h4 he
      exact hdist j k (by omega) (by omega) (by omega) (by omega) he
    obtain ⟨forest', store', hrun, hsetup, hlook, hpres, hmem, hmono, hsub⟩ :=
      ih (i + 1)
        ⟨forest.setup, rootInsert (blockLabelHash fc key setup revName i)
          [shardCid fc key content i] forest.root⟩
        ⟨(shardCid fc key content i, shardCt key content i) :: store.map⟩
        hfresh1 hdist1
    refine ⟨forest', store', ?_, ?_, ?_, ?_, ?_, ?_, ?_⟩
    · simp only [prepareBlocks]
      rw [hputb]
      show prepareBlocks fc key content revName setup (i + 1) n
          (PrivateForest.putEncrypted fc.sha3acc forest
            (createBlockLabel fc key i revName setup) [shardCid fc key content i])
          ⟨(shardCid fc key content i, shardCt key content i) :: store.map⟩ =
        Except.ok (forest', store')
      rw [hpute]
      exact hrun
    · rw [hsetup]
    · intro j h1 h2
      by_cases hji : j = i
      · have hpr := hpres (blockLabelHash fc key setup revName i) ?side
        case side =>
          intro j' h1' h2' he
          have := hdist i j' (le_refl i) (by omega) (by omega) (by omega) he
          omega
        rw [hji, hpr]
        show (rootInsert (blockLabelHash fc key setup revName i)
          [shardCid fc key content i] forest.root).lookup
            (blockLabelHash fc key setup revName i) = _
        rw [lookup_rootInsert_self]
      · exact hlook j (by omega) (by omega)
    · intro hx hne
      rw [hpres hx (fun j h1 h2 => hne j (by omega) (by omega))]
      show (rootInsert (blockLabelHash fc key setup revName i)
        [shardCid fc key content i] forest.root).lookup hx = _
      exact lookup_rootInsert_ne _ _ _ _ (hne i (le_refl i) (by omega))
    · intro j h1 h2
      by_cases hji : j = i
      · rw [hji]
        exact hmono _ (List.mem_cons_self _ _)
      · exact hmem j (by omega) (by omega)
    · intro p hp
      exact hmono p (List.mem_cons_of_mem _ hp)
    · intro p hp
      rcases hsub p hp with hp1 | ⟨j, hj1, hj2, hj3⟩
      · rcases List.mem_cons.mp hp1 with hp2 | hp2
        · exact Or.inr ⟨i, le_refl i, by omega, hp2⟩
        · exact Or.inl hp2
      · exact Or.inr ⟨j, by omega, by omega, hj3⟩

theorem streamGo_all_ok (fc : FileCrypto) (key : SnapshotKey)
    (forest : PrivateForest) (store : RawBlockStore)
    (f : Nat → NameAccumulator) (g : Nat → List Nat) :
    ∀ js : List Nat,
      (∀ j ∈ js,
        PrivateFile.decryptBlock fc key (f j) forest store = some (.ok (g j))) →
      streamGo fc key forest store (js.map f) = some (.ok (js.map g)) := by
  intro js
  induction js with
  | nil => intro _; rfl
  | cons j rest ih =>
    intro h
    rw [List.map_cons, streamGo, h j (List.mem_cons_self _ _),
      ih (fun j' hj' => h j' (List.mem_cons_of_mem _ hj'))]
    rfl

theorem decryptBlock_of_stored (fc : FileCrypto) (key : SnapshotKey)
    (forest' : PrivateForest) (store' : RawBlockStore) (j : Nat)
    (content : List Nat) (revName : NameAccumulator) (setup : AccumulatorSetup)
    (hlook : forest'.root.lookup (blockLabelHash fc key setup revName j) =
      some [shardCid fc key content j])
    (hmem : (shardCid fc key content j, shardCt key content j) ∈ store'.map)
    (hwf : ∀ p ∈ store'.map, p.1 = fc.cidOf p.2)
    (hcid : ∀ ct1 ct2 : Ciphertext, fc.cidOf ct1 = fc.cidOf ct2 → ct1 = ct2) :
    PrivateFile.decryptBlock fc key (createBlockLabel fc key j revName setup)
      forest' store' = some (.ok (shardSlice content j)) := by
  have hsome := lookup_isSome_of_mem hmem
  rcases hlk : store'.map.lookup (shardCid fc key content j) with _ | ct'
  · rw [hlk] at hsome
    simp at hsome
  · have hmem' := Blockstore.lookup_mem hlk
    have hct' : ct' = shardCt key content j := by
      apply hcid
      have h1 := hwf _ hmem'
      rw [← h1]
      rfl
    subst hct'
    simp only [PrivateFile.decryptBlock]
    have hlook' : forest'.getEncrypted
        (fc.sha3acc (createBlockLabel fc key j revName setup).state) =
        some [shardCid fc key content j] := hlook
    rw [hlook']
    simp only [List.head?]
    rw [getBlockRaw, hlk]
    simp [SnapshotKey.decrypt, shardCt]

/-- C5: for every content byte string of length in
`[0, 2 · MAX_BLOCK_CONTENT_SIZE]`, a file created from it with
`PrivateFile::with_content` satisfies: the stored block count is
`ceil(length / MAX_BLOCK_CONTENT_SIZE)` with `MAX_BLOCK_CONTENT_SIZE =
MAX_BLOCK_SIZE − NONCE_SIZE − AUTHENTICATION_TAG_SIZE`; the chunks yielded
by `stream_content(0)` against the resulting forest and store are exactly
the written shard slices and their concatenation is the original content;
and `get_content` returns exactly the original bytes. Hypotheses: the
fresh shard labels do not collide with each other or with anything already
in the forest (they contain segments derived from the fresh 256-bit
snapshot key, so a collision amounts to breaking SHA3 or the accumulator),
the content CID function is collision-free (SHA2-256), and the prior store
is content-addressed. -/
theorem file_content_roundtrip (fc : FileCrypto) (parentName : Name)
    (time : Int) (content : List Nat) (forest : PrivateForest)
    (store : RawBlockStore) (inumber : NameSegment) (ratchetSeed : Nat)
    (key : SnapshotKey)
    (_hlen : content.length ≤ 2 * MAX_BLOCK_CONTENT_SIZE)
    (hfresh : ∀ j, j < blockCountOf content.length →
      forest.root.lookup
        (fileLabelHash fc parentName inumber ratchetSeed forest.setup key j) = none)
    (hdist : ∀ j k, j < blockCountOf content.length →
      k < blockCountOf content.length →
      fileLabelHash fc parentName inumber ratchetSeed forest.setup key j =
        fileLabelHash fc parentName inumber ratchetSeed forest.setup key k → j = k)
    (hcid : ∀ ct1 ct2 : Ciphertext, fc.cidOf ct1 = fc.cidOf ct2 → ct1 = ct2)
    (hwf : ∀ p ∈ store.map, p.1 = fc.cidOf p.2) :
    ∃ (file : PrivateFile) (forest' : PrivateForest) (store' : RawBlockStore),
      PrivateFile.withContent fc parentName time content forest store inumber
        ratchetSeed key = .ok (file, forest', store') ∧
      file.content.content =
        .external key (blockCountOf content.length) MAX_BLOCK_CONTENT_SIZE ∧
      blockCountOf content.length =
        (content.length + MAX_BLOCK_CONTENT_SIZE - 1) / MAX_BLOCK_CONTENT_SIZE ∧
      PrivateFile.streamContent fc file 0 forest' store' =
        some (.ok ((List.range' 0 (blockCountOf content.length)).map
          (shardSlice content))) ∧
      ((List.range' 0 (blockCountOf content.length)).map
        (shardSlice content)).flatten = content ∧
      PrivateFile.getContent fc file forest' store' = some content := by
  obtain ⟨forest', store', hrun, hsetup, hlook, hpres, hmem, hmono, hsub⟩ :=
    prepareBlocks_spec fc key content
      (createRevisionName fc
        ((PrivateNodeHeader.new parentName inumber ratchetSeed).name.asAccumulator
          forest.getAccumulatorSetup) key forest.getAccumulatorSetup)
      forest.getAccumulatorSetup (blockCountOf content.length) 0 forest store
      (fun j _ h2 => hfresh j (by omega))
      (fun j k _ h2 _ h4 he => hdist j k (by omega) (by omega) he)
  have hwf' : ∀ p ∈ store'.map, p.1 = fc.cidOf p.2 := by
    intro p hp
    rcases hsub p hp with hp1 | ⟨j, _, _, hj⟩
    · exact hwf p hp1
    · rw [hj]; rfl
  have hrunc : PrivateFile.withContent fc parentName time content forest store
      inumber ratchetSeed key =
      .ok (⟨PrivateNodeHeader.new parentName inumber ratchetSeed,
        ⟨none, [], Metadata.new time,
          .external key (blockCountOf content.length) MAX_BLOCK_CONTENT_SIZE⟩⟩,
        forest', store') := by
    unfold PrivateFile.withContent PrivateFile.prepareContent
    simp only []
    rw [hrun]
  have hstream : PrivateFile.streamContent fc
      ⟨PrivateNodeHeader.new parentName inumber ratchetSeed,
        ⟨none, [], Metadata.new time,
          .external key (blockCountOf content.length) MAX_BLOCK_CONTENT_SIZE⟩⟩
      0 forest' store' =
      some (.ok ((List.range' 0 (blockCountOf content.length)).map
        (shardSlice content))) := by
    simp only [PrivateFile.streamContent, generateShardLabels, Nat.sub_zero]
    have hsetup' : forest'.getAccumulatorSetup = forest.getAccumulatorSetup :=
      hsetup
    rw [hsetup']
    exact streamGo_all_ok fc key forest' store' _ (shardSlice content) _
      (fun j hj => by
        have hjlt : j < blockCountOf content.length := by
          have := List.mem_range'_1.mp hj
          omega
        exact decryptBlock_of_stored fc key forest' store' j content _ _
          (hlook j (by omega) (by omega)) (hmem j (by omega) (by omega))
          hwf' hcid)
  have hflat : ((List.range' 0 (blockCountOf content.length)).map
      (shardSlice content)).flatten = content := by
    have := chunks_flatten content (blockCountOf content.length) 0 (by omega)
    simpa using this
  refine ⟨_, forest', store', hrunc, rfl, blockCountOf_eq content.length,
    hstream, hflat, ?_⟩
  simp only [PrivateFile.getContent, hstream, hflat]

/-- C9: for every file created by `with_content` (via `prepare_content`)
in a given forest, every shard label with index strictly below
`block_count` maps in the resulting forest to a non-empty CID set; hence
the `.expect("Expected set with at least a Cid")` branch of
`decrypt_block` is unreachable and `stream_content` (from any start
index) and `get_content` never panic when reading the file against the
forest and store it was stored in; a label that is missing from the
forest instead yields the `FileShardNotFound` error. Panics are the
`none` results of the model. Hypotheses as in the roundtrip theorem. -/
theorem shard_labels_nonempty_no_panic (fc : FileCrypto) (parentName : Name)
    (time : Int) (content : List Nat) (forest : PrivateForest)
    (store : RawBlockStore) (inumber : NameSegment) (ratchetSeed : Nat)
    (key : SnapshotKey)
    (hfresh : ∀ j, j < blockCountOf content.length →
      forest.root.lookup
        (fileLabelHash fc parentName inumber ratchetSeed forest.setup key j) = none)
    (hdist : ∀ j k, j < blockCountOf content.length →
      k < blockCountOf content.length →
      fileLabelHash fc parentName inumber ratchetSeed forest.setup key j =
        fileLabelHash fc parentName inumber ratchetSeed forest.setup key k → j = k)
    (hcid : ∀ ct1 ct2 : Ciphertext, fc.cidOf ct1 = fc.cidOf ct2 → ct1 = ct2)
    (hwf : ∀ p ∈ store.map, p.1 = fc.cidOf p.2) :
    ∃ (file : PrivateFile) (forest' : PrivateForest) (store' : RawBlockStore),
      PrivateFile.withContent fc parentName time content forest store inumber
        ratchetSeed key = .ok (file, forest', store') ∧
      (∀ j, j < blockCountOf content.length →
        ∃ cids, forest'.getEncrypted
            (fileLabelHash fc parentName inumber ratchetSeed forest.setup key j) =
          some cids ∧ cids ≠ []) ∧
      (∀ idx, PrivateFile.streamContent fc file idx forest' store' ≠ none) ∧
      PrivateFile.getContent fc file forest' store' ≠ none ∧
      (∀ label, forest'.getEncrypted (fc.sha3acc label.state) = none →
        PrivateFile.decryptBlock fc key label forest' store' =
          some (.error .fileShardNotFound)) := by
  obtain ⟨forest', store', hrun, hsetup, hlook, hpres, hmem, hmono, hsub⟩ :=
    prepareBlocks_spec fc key content
      (createRevisionName fc
        ((PrivateNodeHeader.new parentName inumber ratchetSeed).name.asAccumulator
          forest.getAccumulatorSetup) key forest.getAccumulatorSetup)
      forest.getAccumulatorSetup (blockCountOf content.length) 0 forest store
      (fun j _ h2 => hfresh j (by omega))
      (fun j k _ h2 _ h4 he => hdist j k (by omega) (by omega) he)
  have hwf' : ∀ p ∈ store'.map, p.1 = fc.cidOf p.2 := by
    intro p hp
    rcases hsub p hp with hp1 | ⟨j, _, _, hj⟩
    · exact hwf p hp1
    · rw [hj]; rfl
  have hrunc : PrivateFile.withContent fc parentName time content forest store
      inumber ratchetSeed key =
      .ok (⟨PrivateNodeHeader.new parentName inumber ratchetSeed,
        ⟨none, [], Metadata.new time,
          .external key (blockCountOf content.length) MAX_BLOCK_CONTENT_SIZE⟩⟩,
        forest', store') := by
    unfold PrivateFile.withContent PrivateFile.prepareContent
    simp only []
    rw [hrun]
  have hstreamAll : ∀ idx, PrivateFile.streamContent fc
      ⟨PrivateNodeHeader.new parentName inumber ratchetSeed,
        ⟨none, [], Metadata.new time,
          .external key (blockCountOf content.length) MAX_BLOCK_CONTENT_SIZE⟩⟩
      idx forest' store' =
      some (.ok ((List.range' idx (blockCountOf content.length - idx)).map
        (shardSlice content))) := by
    intro idx
    simp only [PrivateFile.streamContent, generateShardLabels]
    have hsetup' : forest'.getAccumulatorSetup = forest.getAccumulatorSetup :=
      hsetup
    rw [hsetup']
    exact streamGo_all_ok fc key forest' store' _ (shardSlice content) _
      (fun j hj => by
        have hjlt : j < blockCountOf content.length := by
          have := List.mem_range'_1.mp hj
          omega
        exact decryptBlock_of_stored fc key forest' store' j content _ _
          (hlook j (by omega) (by omega)) (hmem j (by omega) (by omega))
          hwf' hcid)
  refine ⟨_, forest', store', hrunc, ?_, ?_, ?_, ?_⟩
  · intro j hj
    exact ⟨[shardCid fc key content j], hlook j (by omega) (by omega), by simp⟩
  · intro idx
    rw [hstreamAll idx]
    simp
  · rw [PrivateFile.getContent]
    rw [hstreamAll 0]
    simp
  · intro label h
    unfold PrivateFile.decryptBlock
    simp only []
    rw [h]

theorem encListNat_inj : ∀ l1 l2 : List Nat, encListNat l1 = encListNat l2 →
    l1 = l2 := by
  intro l1
  induction l1 with
  | nil =>
    intro l2 h
    cases l2 with
    | nil => rfl
    | cons c cs => simp [encListNat] at h
  | cons a as ih =>
    intro l2 h
    cases l2 with
    | nil => simp [encListNat] at h
    | cons c cs =>
      simp only [encListNat, List.foldr] at h
      have h2 : Nat.pair a (encListNat as) = Nat.pair c (encListNat cs) := by
        simpa [encListNat] using h
      obtain ⟨h3, h4⟩ := Nat.pair_eq_pair.mp h2
      rw [h3, ih cs h4]

theorem fcW_cidOf_inj (ct1 ct2 : Ciphertext)
    (h : fcW.cidOf ct1 = fcW.cidOf ct2) : ct1 = ct2 := by
  rcases ct1 with ⟨⟨k1⟩, p1⟩
  rcases ct2 with ⟨⟨k2⟩, p2⟩
  obtain ⟨h1, h2⟩ := Nat.pair_eq_pair.mp h
  rw [show k1 = k2 from h1, encListNat_inj p1 p2 h2]

/-- Witness for C5 at a concrete input: content `[7]` (one shard),
parent name relative to accumulator 2 with inumber segment 2, snapshot
key 3, over the setup `(modulus 5, generator 2)` and an empty forest and
store: `with_content` succeeds with block count 1, streaming returns the
single chunk `[7]`, and `get_content` returns `[7]`. -/
theorem file_content_roundtrip_witness :
    ∃ (file : PrivateFile) (forest' : PrivateForest) (store' : RawBlockStore),
      PrivateFile.withContent fcW ⟨⟨2⟩, [], none⟩ 0 [7] ⟨⟨5, 2⟩, []⟩ ⟨[]⟩
        ⟨2⟩ 0 ⟨3⟩ = .ok (file, forest', store') ∧
      file.content.content = .external ⟨3⟩ (blockCountOf 1) MAX_BLOCK_CONTENT_SIZE ∧
      blockCountOf 1 = (1 + MAX_BLOCK_CONTENT_SIZE - 1) / MAX_BLOCK_CONTENT_SIZE ∧
      PrivateFile.streamContent fcW file 0 forest' store' =
        some (.ok ((List.range' 0 (blockCountOf 1)).map (shardSlice [7]))) ∧
      ((List.range' 0 (blockCountOf 1)).map (shardSlice [7])).flatten = [7] ∧
      PrivateFile.getContent fcW file forest' store' = some [7] :=
  file_content_roundtrip fcW ⟨⟨2⟩, [], none⟩ 0 [7] ⟨⟨5, 2⟩, []⟩ ⟨[]⟩ ⟨2⟩ 0 ⟨3⟩
    (by norm_num [MAX_BLOCK_CONTENT_SIZE, MAX_BLOCK_SIZE, NONCE_SIZE,
      AUTHENTICATION_TAG_SIZE])
    (fun j hj => rfl)
    (fun j k hj hk _ => by
      have hbc : blockCountOf (List.length [7]) = 1 := by decide
      omega)
    fcW_cidOf_inj
    (fun p hp => absurd hp (by simp))

/-- Witness for C9 at the same concrete input: the single shard label
maps to a non-empty CID set, streaming from any index and `get_content`
do not panic, and missing labels yield `FileShardNotFound`. -/
theorem shard_labels_nonempty_no_panic_witness :
    ∃ (file : PrivateFile) (forest' : PrivateForest) (store' : RawBlockStore),
      PrivateFile.withContent fcW ⟨⟨2⟩, [], none⟩ 0 [7] ⟨⟨5, 2⟩, []⟩ ⟨[]⟩
        ⟨2⟩ 0 ⟨3⟩ = .ok (file, forest', store') ∧
      (∀ j, j < blockCountOf 1 →
        ∃ cids, forest'.getEncrypted
            (fileLabelHash fcW ⟨⟨2⟩, [], none⟩ ⟨2⟩ 0 ⟨5, 2⟩ ⟨3⟩ j) =
          some cids ∧ cids ≠ []) ∧
      (∀ idx, PrivateFile.streamContent fcW file idx forest' store' ≠ none) ∧
      PrivateFile.getContent fcW file forest' store' ≠ none ∧
      (∀ label, forest'.getEncrypted (fcW.sha3acc label.state) = none →
        PrivateFile.decryptBlock fcW ⟨3⟩ label forest' store' =
          some (.error .fileShardNotFound)) :=
  shard_labels_nonempty_no_panic fcW ⟨⟨2⟩, [], none⟩ 0 [7] ⟨⟨5, 2⟩, []⟩ ⟨[]⟩
    ⟨2⟩ 0 ⟨3⟩
    (fun j hj => rfl)
    (fun j k hj hk _ => by
      have hbc : blockCountOf (List.length [7]) = 1 := by decide
      omega)
    fcW_cidOf_inj
    (fun p hp => absurd hp (by simp))

end Priv

namespace OldPriv

theorem fixUpGo_hamt_unchanged {H : Type} (c : Crypto) :
    ∀ (l : List (PrivateDirectory × String)) (w : PrivateDirectory)
      (hamt : H) (root : PrivateDirectory) (hamt' : H),
      fixUpGo c l w hamt = .ok (root, hamt') → hamt' = hamt := by
  intro l
  induction l with
  | nil =>
    intro w hamt root hamt' h
    rw [fixUpGo] at h
    exact (congrArg Prod.snd (Except.ok.inj h)).symm
  | cons p rest ih =>
    rcases p with ⟨dir, segment⟩
    intro w hamt root hamt' h
    rw [fixUpGo] at h
    rcases hg : entriesGet dir.content.entries segment with _ | r
    · rw [hg] at h
      rcases hr : generateChildPrivateRef c dir.header w.header with e | pr
      · rw [hr] at h
        exact absurd h (by simp)
      · rw [hr] at h
        exact ih _ _ _ _ h
    · rw [hg] at h
      exact ih _ _ _ _ h

/-- C2 counterexample core: `fix_up_path_nodes` never inserts anything
into the private forest — the returned forest state is the input one, for
every path and every forest, because the required `hamt.set` call is
commented out (`TODO(appcypher)`). Hence the updated ancestor revisions
produced by a mutating operation are not fetchable from the forest via
their derived `PrivateRef`s: they are orphaned, contradicting the claim
and spec §3.2 invariant 6, which the spec explicitly requires
("Implementers must perform the forest insert at fix-up time"). -/
theorem fixUpPathNodes_never_inserts {H : Type} (c : Crypto)
    (pathNodes : PrivatePathNodes) (hamt : H) (root : PrivateDirectory)
    (hamt' : H) (h : fixUpPathNodes c pathNodes hamt = .ok (root, hamt')) :
    hamt' = hamt := by
  rw [fixUpPathNodes] at h
  by_cases he : pathNodes.path.isEmpty
  · rw [if_pos he] at h
    exact (congrArg Prod.snd (Except.ok.inj h)).symm
  · rw [if_neg he] at h
    exact fixUpGo_hamt_unchanged c _ _ _ _ _ h

/-- Witness for C2's theorem at a concrete input: fixing up a one-level
path over the concrete forest state `[42, 43]` succeeds (inserting the
fresh child ref into the parent directory) and returns that forest state
unchanged — the new parent revision was not deposited anywhere. -/
theorem fixUpPathNodes_never_inserts_witness :
    fixUpPathNodes (H := List Nat) fixUpCrypto0 fixUpInput0 [42, 43] =
      .ok (⟨some ⟨0, ⟨0, 0⟩, 0⟩,
        ⟨⟨0⟩, [("a", ⟨1, 0, some ⟨[], some 0⟩⟩)]⟩⟩, [42, 43]) ∧
    ([42, 43] : List Nat) = [42, 43] :=
  ⟨by rfl,
    fixUpPathNodes_never_inserts (H := List Nat) fixUpCrypto0 fixUpInput0
      [42, 43]
      ⟨some ⟨0, ⟨0, 0⟩, 0⟩, ⟨⟨0⟩, [("a", ⟨1, 0, some ⟨[], some 0⟩⟩)]⟩⟩
      [42, 43] (by rfl)⟩

end OldPriv

namespace Pub

theorem userlandGet_insert_self (k : String) (v : PublicLink)
    (m : List (String × PublicLink)) :
    userlandGet (userlandInsert k v m) k = some v := by
  induction m with
  | nil => simp [userlandGet, userlandInsert, List.lookup]
  | cons p rest ih =>
    rcases p with ⟨k', v'⟩
    by_cases hk : k = k'
    · simp [userlandInsert, hk, userlandGet, List.lookup]
    · have hbeq : (k == k') = false := by simp [hk]
      simp only [userlandInsert, if_neg hk]
      simp only [userlandGet, List.lookup, hbeq] at ih ⊢
      exact ih

theorem userlandGet_insert_ne (k k2 : String) (v : PublicLink)
    (m : List (String × PublicLink)) (hne : k2 ≠ k) :
    userlandGet (userlandInsert k v m) k2 = userlandGet m k2 := by
  induction m with
  | nil =>
    have hbeq : (k2 == k) = false := by simp [hne]
    simp [userlandGet, userlandInsert, List.lookup, hbeq]
  | cons p rest ih =>
    rcases p with ⟨k', v'⟩
    by_cases hk : k = k'
    · subst hk
      have hbeq : (k2 == k) = false := by simp [hne]
      simp [userlandInsert, userlandGet, List.lookup, hbeq]
    · simp only [userlandInsert, if_neg hk]
      by_cases hk2 : k2 = k'
      · simp [userlandGet, List.lookup, hk2]
      · have hbeq : (k2 == k') = false := by simp [hk2]
        simp only [userlandGet, List.lookup, hbeq] at ih ⊢
        exact ih

theorem prep_userland (d : PublicDirectory) :
    d.prepareNextRevision.userland = d.userland := by
  rcases d with ⟨p, m, u, pr⟩
  cases p <;> rfl

theorem withUserland_userland (d : PublicDirectory)
    (u : List (String × PublicLink)) : (d.withUserland u).userland = u := by
  rcases d with ⟨p, m, u0, pr⟩
  rfl

theorem lookupNode_prep (d : PublicDirectory) (s : String) (σ : Store) :
    lookupNode d.prepareNextRevision s σ = lookupNode d s σ := by
  rw [lookupNode, lookupNode, prep_userland]

theorem lookupNode_withUserland (d : PublicDirectory)
    (u : List (String × PublicLink)) (s : String) (σ : Store) :
    lookupNode (d.withUserland u) s σ =
      (match userlandGet u s with
      | none => .ok none
      | some link =>
        match resolveLink σ link with
        | .error e => .error e
        | .ok n => .ok (some n)) := by
  rw [lookupNode, withUserland_userland]

theorem prependPath_comp (a b : List (PublicDirectory × String))
    (r : PathNodesResult) :
    prependPath a (prependPath b r) = prependPath (a ++ b) r := by
  rcases r with ⟨path, tail⟩ | ⟨⟨path, tail⟩, s⟩ | ⟨⟨path, tail⟩, s⟩ <;>
    simp [prependPath]

theorem gpnGo_acc (σ : Store) :
    ∀ (segs : List String) (d : PublicDirectory)
      (acc : List (PublicDirectory × String)),
      getPathNodesGo σ d segs acc =
        (getPathNodesGo σ d segs []).map (prependPath acc) := by
  intro segs
  induction segs with
  | nil =>
    intro d acc
    simp [getPathNodesGo, Except.map, prependPath]
  | cons s rest ih =>
    intro d acc
    simp only [getPathNodesGo]
    rcases hlk : lookupNode d s σ with e | nodeOpt
    · simp [hlk, Except.map]
    · rcases nodeOpt with _ | n
      · simp [hlk, Except.map, prependPath]
      · rcases n with f | d'
        · simp [hlk, Except.map, prependPath]
        · simp only [hlk]
          rw [ih d' (acc ++ [(d, s)]), ih d' ([] ++ [(d, s)])]
          rcases hrec : getPathNodesGo σ d' rest [] with e | r
          · rfl
          · simp [Except.map, prependPath_comp]

/-- `read` agrees with the recursive `readAux` descent. -/
theorem read_go (σ : Store) (filename : String) :
    ∀ (dirPath : List String) (d : PublicDirectory),
      (match getPathNodes d dirPath σ with
        | .error e => .error e
        | .ok (.complete nodePath) =>
          match lookupNode nodePath.tail filename σ with
          | .error e => .error e
          | .ok (some (.file file)) => .ok file.userland
          | .ok (some (.dir _)) => .error .notAFile
          | .ok none => .error .notFound
        | .ok _ => (.error .notFound : Except FsError Cid)) =
        readAux σ d (dirPath ++ [filename]) := by
  intro dirPath
  induction dirPath with
  | nil =>
    intro d
    simp only [getPathNodes, getPathNodesGo, List.nil_append, readAux]
    rcases hlk : lookupNode d filename σ with e | nodeOpt
    · simp [hlk]
    · rcases nodeOpt with _ | n
      · simp [hlk]
      · rcases n with f | d' <;> simp [hlk]
  | cons s rest ih =>
    intro d
    rw [show (s :: rest) ++ [filename] = s :: (rest ++ [filename]) from rfl]
    simp only [getPathNodes, getPathNodesGo, readAux]
    rcases hlk : lookupNode d s σ with e | nodeOpt
    · cases rest <;> simp [hlk]
    · rcases nodeOpt with _ | n
      · cases rest <;> simp [hlk]
      · rcases n with f | d'
        · cases rest <;> simp [hlk]
        · simp only [hlk]
          rw [gpnGo_acc σ rest d' ([] ++ [(d, s)])]
          rw [← ih d']
          rw [getPathNodes]
          rcases hrec : getPathNodesGo σ d' rest [] with e | r
          · cases rest with
            | nil => simp [getPathNodesGo] at hrec
            | cons y ys => simp [Except.map]
          · rcases r with ⟨path, tail⟩ | ⟨⟨path, tail⟩, sg⟩ | ⟨⟨path, tail⟩, sg⟩ <;>
              · cases rest with
                | nil =>
                  simp only [getPathNodesGo, Except.ok.injEq] at hrec
                  simp_all [Except.map, prependPath]
                | cons y ys => simp [Except.map, prependPath]

theorem splitLast_eq : ∀ (segs : List String) (a : List String) (b : String),
    splitLast segs = .ok (a, b) → segs = a ++ [b] := by
  intro segs
  induction segs with
  | nil => intro a b h; simp [splitLast] at h
  | cons x rest ih =>
    intro a b h
    cases rest with
    | nil =>
      simp only [splitLast, Except.ok.injEq, Prod.mk.injEq] at h
      rw [← h.1, ← h.2]
      rfl
    | cons y ys =>
      rw [splitLast] at h
      rcases hrec : splitLast (y :: ys) with e | p
      · rw [hrec] at h; exact absurd h (by simp)
      · rcases p with ⟨init, last⟩
        rw [hrec] at h
        simp only [Except.ok.injEq, Prod.mk.injEq] at h
        rw [← h.1, ← h.2]
        simpa using ih init last hrec

theorem splitLast_cons_ok : ∀ (rest : List String) (x : String),
    ∃ p, splitLast (x :: rest) = .ok p := by
  intro rest
  induction rest with
  | nil => exact fun x => ⟨([], x), rfl⟩
  | cons y ys ih =>
    intro x
    obtain ⟨⟨init, last⟩, hp⟩ := ih y
    exact ⟨(x :: init, last), by rw [splitLast, hp]⟩

theorem read_eq_readAux (root : PublicDirectory) (segs : List String)
    (σ : Store) : read root segs σ = readAux σ root segs := by
  rw [read]
  rcases hsp : splitLast segs with e | p
  · cases segs with
    | nil =>
      simp only [splitLast, Except.error.injEq] at hsp
      rw [← hsp, readAux]
    | cons x rest =>
      obtain ⟨p, hp⟩ := splitLast_cons_ok rest x
      rw [hp] at hsp
      exact absurd hsp (by simp)
  · rcases p with ⟨dirPath, filename⟩
    have heq := splitLast_eq segs dirPath filename hsp
    rw [heq]
    exact read_go σ filename dirPath root

theorem chain_wpath {σ : Store} {d tail : PublicDirectory}
    {path : List (PublicDirectory × String)} (h : Chain σ d path tail) :
    WPath σ d path tail := by
  induction h with
  | nil d => exact WPath.nil d
  | step hlk _ ih => exact WPath.step hlk ih

theorem wpath_append {σ : Store} {d mid tail : PublicDirectory}
    {p1 p2 : List (PublicDirectory × String)} (h1 : Chain σ d p1 mid)
    (h2 : WPath σ mid p2 tail) : WPath σ d (p1 ++ p2) tail := by
  induction h1 with
  | nil d => exact h2
  | step hlk _ ih => exact WPath.step hlk (ih h2)

theorem map_mk_snd (t : Int) : ∀ (l : List String),
    (l.map (fun s => (PublicDirectory.new t, s))).map (fun x => x.2) = l := by
  intro l
  induction l with
  | nil => rfl
  | cons a l ih => simp [ih]

theorem gpn_complete_chain (σ : Store) :
    ∀ (segs : List String) (d : PublicDirectory) (pn : PathNodes),
      getPathNodes d segs σ = .ok (.complete pn) →
      Chain σ d pn.path pn.tail ∧ pn.path.map (·.2) = segs := by
  intro segs
  induction segs with
  | nil =>
    intro d pn h
    simp only [getPathNodes, getPathNodesGo, Except.ok.injEq,
      PathNodesResult.complete.injEq] at h
    subst h
    exact ⟨Chain.nil d, rfl⟩
  | cons s rest ih =>
    intro d pn h
    simp only [getPathNodes, getPathNodesGo] at h
    rcases hlk : lookupNode d s σ with e | nodeOpt
    · simp [hlk] at h
    · rcases nodeOpt with _ | n
      · simp [hlk] at h
      · rcases n with f | d'
        · simp [hlk] at h
        · simp only [hlk] at h
          rw [gpnGo_acc σ rest d' ([] ++ [(d, s)])] at h
          rcases hrec : getPathNodesGo σ d' rest [] with e | r
          · rw [hrec] at h; simp [Except.map] at h
          · rw [hrec] at h
            rcases r with ⟨path, tail⟩ | ⟨⟨path, tail⟩, sg⟩ | ⟨⟨path, tail⟩, sg⟩
            · simp only [Except.map, prependPath, Except.ok.injEq,
                PathNodesResult.complete.injEq] at h
              obtain ⟨hc0, hm0⟩ := ih d' ⟨path, tail⟩ hrec
              have hc : Chain σ d' path tail := hc0
              have hm : path.map (fun x => x.2) = rest := hm0
              subst h
              constructor
              · show Chain σ d (([] ++ [(d, s)]) ++ path) tail
                simp only [List.nil_append, List.singleton_append]
                exact Chain.step hlk hc
              · show ((([] ++ [(d, s)]) ++ path).map
                    (fun x : PublicDirectory × String => x.2)) = s :: rest
                simp only [List.nil_append, List.singleton_append, List.map_cons]
                rw [hm]
            · simp [Except.map, prependPath] at h
            · simp [Except.map, prependPath] at h

theorem gpn_missing_chain (σ : Store) :
    ∀ (segs : List String) (d : PublicDirectory) (pn : PathNodes)
      (missing : String),
      getPathNodes d segs σ = .ok (.missingLink pn missing) →
      Chain σ d pn.path pn.tail ∧
      lookupNode pn.tail missing σ = .ok none ∧
      pn.path.map (·.2) ++ missing :: segs.drop (pn.path.length + 1) = segs := by
  intro segs
  induction segs with
  | nil =>
    intro d pn missing h
    simp [getPathNodes, getPathNodesGo] at h
  | cons s rest ih =>
    intro d pn missing h
    simp only [getPathNodes, getPathNodesGo] at h
    rcases hlk : lookupNode d s σ with e | nodeOpt
    · simp [hlk] at h
    · rcases nodeOpt with _ | n
      · simp only [hlk, Except.ok.injEq, PathNodesResult.missingLink.injEq] at h
        obtain ⟨hpn, hsg⟩ := h
        subst hpn
        subst hsg
        exact ⟨Chain.nil d, hlk, by simp⟩
      · rcases n with f | d'
        · simp [hlk] at h
        · simp only [hlk] at h
          rw [gpnGo_acc σ rest d' ([] ++ [(d, s)])] at h
          rcases hrec : getPathNodesGo σ d' rest [] with e | r
          · rw [hrec] at h; simp [Except.map] at h
          · rw [hrec] at h
            rcases r with ⟨path, tail⟩ | ⟨⟨path, tail⟩, sg⟩ | ⟨⟨path, tail⟩, sg⟩
            · simp [Except.map, prependPath] at h
            · simp only [Except.map, prependPath, Except.ok.injEq,
                PathNodesResult.missingLink.injEq] at h
              obtain ⟨hc0, hn0, hm0⟩ := ih d' ⟨path, tail⟩ sg hrec
              have hc : Chain σ d' path tail := hc0
              have hn : lookupNode tail sg σ = .ok none := hn0
              have hm : path.map (fun x => x.2) ++
                  sg :: rest.drop (path.length + 1) = rest := hm0
              obtain ⟨hpn, hsg⟩ := h
              subst hpn
              subst hsg
              refine ⟨?_, hn, ?_⟩
              · show Chain σ d (([] ++ [(d, s)]) ++ path) tail
                simp only [List.nil_append, List.singleton_append]
                exact Chain.step hlk hc
              · show ((([] ++ [(d, s)]) ++ path).map
                    (fun x : PublicDirectory × String => x.2)) ++
                  sg :: (s :: rest).drop ((([] ++ [(d, s)]) ++ path).length + 1) =
                  s :: rest
                simp only [List.nil_append, List.singleton_append, List.map_cons,
                  List.length_cons, List.drop_succ_cons, List.cons_append]
                rw [hm]
            · simp [Except.map, prependPath] at h

theorem getOrCreate_spec (σ : Store) (t : Int) (root : PublicDirectory)
    (dirPath : List String) (pn : PathNodes)
    (h : getOrCreatePathNodes root dirPath t σ = .ok pn) :
    WPath σ root pn.path pn.tail ∧ pn.path.map (·.2) = dirPath := by
  rw [getOrCreatePathNodes] at h
  rcases hg : getPathNodes root dirPath σ with e | r
  · rw [hg] at h; exact absurd h (by simp)
  · rcases r with pnc | ⟨pns, missing⟩ | ⟨pns, sg⟩
    · simp only [hg, Except.ok.injEq] at h
      subst h
      obtain ⟨hc, hm⟩ := gpn_complete_chain σ dirPath root pnc hg
      exact ⟨chain_wpath hc, hm⟩
    · simp only [hg, Except.ok.injEq] at h
      obtain ⟨hc, hn, hm⟩ := gpn_missing_chain σ dirPath root pns missing hg
      subst h
      have hcp : (createPathNodes (dirPath.drop (pns.path.length + 1)) t).path =
          (dirPath.drop (pns.path.length + 1)).map
            (fun s => (PublicDirectory.new t, s)) := rfl
      constructor
      · show WPath σ root (pns.path ++ [(pns.tail, missing)] ++
          (createPathNodes (dirPath.drop (pns.path.length + 1)) t).path) _
        rw [List.append_assoc, List.singleton_append]
        exact wpath_append hc (WPath.missing hn)
      · show ((pns.path ++ [(pns.tail, missing)] ++
          (createPathNodes (dirPath.drop (pns.path.length + 1)) t).path).map
            (fun x => x.2)) = dirPath
        rw [hcp, List.map_append, List.map_append, map_mk_snd]
        simpa using hm
    · simp only [hg] at h
      exact absurd h (by simp)

theorem fixUpGo_append : ∀ (l1 l2 : List (PublicDirectory × String))
    (w : PublicDirectory), fixUpGo (l1 ++ l2) w = fixUpGo l2 (fixUpGo l1 w) := by
  intro l1
  induction l1 with
  | nil => intro l2 w; rfl
  | cons p rest ih =>
    intro l2 w
    rcases p with ⟨d, s⟩
    rw [List.cons_append, fixUpGo, fixUpGo, ih]

theorem fixUp_eq_fixDown : ∀ (path : List (PublicDirectory × String))
    (tail : PublicDirectory), fixUpPathNodes ⟨path, tail⟩ = fixDown path tail := by
  intro path
  induction path with
  | nil => intro tail; rfl
  | cons p rest ih =>
    intro tail
    rcases p with ⟨d, s⟩
    show fixUpGo ((d, s) :: rest).reverse tail = _
    rw [List.reverse_cons, fixUpGo_append]
    show fixUpGo [(d, s)] (fixUpPathNodes ⟨rest, tail⟩) = _
    rw [ih, fixUpGo, fixUpGo, fixDown]

theorem lookupNode_prepInsert (σ : Store) (d : PublicDirectory) (k q0 : String)
    (v : PublicLink) (hne : q0 ≠ k) :
    lookupNode ((d.prepareNextRevision).withUserland
      (userlandInsert k v (d.prepareNextRevision).userland)) q0 σ =
      lookupNode d q0 σ := by
  rw [lookupNode, withUserland_userland, userlandGet_insert_ne k q0 v _ hne,
    prep_userland]
  rfl

theorem readAux_congr_head (σ : Store) (A B : PublicDirectory) (q0 : String)
    (qrest : List String) (h : lookupNode A q0 σ = lookupNode B q0 σ) :
    readAux σ A (q0 :: qrest) = readAux σ B (q0 :: qrest) := by
  simp only [readAux]
  rw [h]

/-- Reading back the path that fix-up rebuilt reaches the freshly written
file: the written userland CID comes out. -/
theorem readAux_fixDown_found (σ : Store) (filename : String) :
    ∀ (path : List (PublicDirectory × String)) (tailNew : PublicDirectory)
      (f : PublicFile),
      userlandGet tailNew.userland filename = some (.decoded (.file f)) →
      readAux σ (fixDown path tailNew)
        (path.map (fun x : PublicDirectory × String => x.2) ++ [filename]) =
        .ok f.userland := by
  intro path
  induction path with
  | nil =>
    intro tailNew f h
    simp only [List.map_nil, List.nil_append, fixDown, readAux, lookupNode, h,
      resolveLink]
  | cons p rest ih =>
    intro tailNew f h
    rcases p with ⟨d, s⟩
    simp only [fixDown, List.map_cons, List.cons_append]
    rcases hq : rest.map (fun x : PublicDirectory × String => x.2) ++ [filename]
      with _ | ⟨q1, qrest⟩
    · simp at hq
    · have hlk2 : lookupNode ((d.prepareNextRevision).withUserland
          (userlandInsert s (.decoded (.dir (fixDown rest tailNew)))
            (d.prepareNextRevision).userland)) s σ =
          .ok (some (.dir (fixDown rest tailNew))) := by
        simp only [lookupNode, withUserland_userland, userlandGet_insert_self,
          resolveLink]
      simp only [readAux, hlk2]
      show readAux σ (fixDown rest tailNew) (q1 :: qrest) = .ok f.userland
      rw [← hq]
      exact ih tailNew f h

/-- Fix-up after a write to one path leaves every read along a different
path unchanged. -/
theorem readAux_fixDown_pres (σ : Store) (filename : String) (f : PublicFile) :
    ∀ {root : PublicDirectory} {path : List (PublicDirectory × String)}
      {tail : PublicDirectory}, WPath σ root path tail →
      (∀ d0, lookupNode tail filename σ ≠ .ok (some (.dir d0))) →
      ∀ (q : List String) (c₀ : Cid), readAux σ root q = .ok c₀ →
      q ≠ path.map (fun x : PublicDirectory × String => x.2) ++ [filename] →
      readAux σ (fixDown path
        ((tail.prepareNextRevision).withUserland
          (userlandInsert filename (.decoded (.file f))
            (tail.prepareNextRevision).userland))) q = .ok c₀ := by
  intro root path tail hw
  induction hw with
  | nil d =>
    intro hnd q c₀ horig hne
    cases q with
    | nil => simp [readAux] at horig
    | cons q0 qrest =>
      by_cases hq0 : q0 = filename
      · subst hq0
        cases qrest with
        | nil => exact absurd (by simp) hne
        | cons y ys =>
          simp only [readAux] at horig
          rcases hlk : lookupNode d q0 σ with e | nodeOpt
          · simp [hlk] at horig
          · rcases nodeOpt with _ | n
            · simp [hlk] at horig
            · rcases n with f0 | d0
              · simp [hlk] at horig
              · exact absurd hlk (hnd d0)
      · simp only [fixDown]
        rw [readAux_congr_head σ _ d q0 qrest
          (lookupNode_prepInsert σ d filename q0 _ hq0)]
        exact horig
  | step hlk hw' ih =>
    intro hnd q c₀ horig hne
    rename_i d d' tail' s rest
    cases q with
    | nil => simp [readAux] at horig
    | cons q0 qrest =>
      by_cases hq0 : q0 = s
      · subst hq0
        cases qrest with
        | nil => simp [readAux, hlk] at horig
        | cons y ys =>
          have horig' : readAux σ d' (y :: ys) = .ok c₀ := by
            simp only [readAux, hlk] at horig
            exact horig
          simp only [fixDown]
          have hlk2 : lookupNode ((d.prepareNextRevision).withUserland
              (userlandInsert q0 (.decoded (.dir (fixDown rest
                ((tail'.prepareNextRevision).withUserland
                  (userlandInsert filename (.decoded (.file f))
                    (tail'.prepareNextRevision).userland)))))
                (d.prepareNextRevision).userland)) q0 σ =
              .ok (some (.dir (fixDown rest
                ((tail'.prepareNextRevision).withUserland
                  (userlandInsert filename (.decoded (.file f))
                    (tail'.prepareNextRevision).userland))))) := by
            simp only [lookupNode, withUserland_userland,
              userlandGet_insert_self, resolveLink]
          simp only [readAux, hlk2]
          show readAux σ (fixDown rest
            ((tail'.prepareNextRevision).withUserland
              (userlandInsert filename (.decoded (.file f))
                (tail'.prepareNextRevision).userland))) (y :: ys) = .ok c₀
          refine ih hnd (y :: ys) c₀ horig' ?_
          intro hc
          exact hne (by rw [List.map_cons, List.cons_append, hc])
      · simp only [fixDown]
        rw [readAux_congr_head σ _ d q0 qrest
          (lookupNode_prepInsert σ d s q0 _ hq0)]
        exact horig
  | missing hlk =>
    intro hnd q c₀ horig hne
    rename_i d tail' s rest
    cases q with
    | nil => simp [readAux] at horig
    | cons q0 qrest =>
      by_cases hq0 : q0 = s
      · subst hq0
        cases qrest <;> simp [readAux, hlk] at horig
      · simp only [fixDown]
        rw [readAux_congr_head σ _ d q0 qrest
          (lookupNode_prepInsert σ d s q0 _ hq0)]
        exact horig

/-- Unpacking a successful `write`: the parent chain is a `WPath`, the
segments are the written path minus the filename, the tail entry was not
a directory, and the result is the top-down fix-up of the new tail. -/
theorem write_spec (σ : Store) (root : PublicDirectory) (segs : List String)
    (c : Cid) (t : Int) (root' : PublicDirectory)
    (h : write root segs c t σ = .ok root') :
    ∃ (pn : PathNodes) (filename : String) (f : PublicFile),
      segs = pn.path.map (fun x : PublicDirectory × String => x.2) ++
        [filename] ∧
      WPath σ root pn.path pn.tail ∧
      (∀ d0, lookupNode pn.tail filename σ ≠ .ok (some (.dir d0))) ∧
      f.userland = c ∧
      root' = fixDown pn.path
        ((pn.tail.prepareNextRevision).withUserland
          (userlandInsert filename (.decoded (.file f))
            (pn.tail.prepareNextRevision).userland)) := by
  rw [write] at h
  rcases hsp : splitLast segs with e | ⟨dirPath, filename⟩
  · rw [hsp] at h; exact absurd h (by simp)
  · simp only [hsp] at h
    have hsegs := splitLast_eq segs dirPath filename hsp
    rcases hgoc : getOrCreatePathNodes root dirPath t σ with e | pn
    · simp [hgoc] at h
    · simp only [hgoc] at h
      obtain ⟨hw, hm⟩ := getOrCreate_spec σ t root dirPath pn hgoc
      rcases hlk : lookupNode pn.tail.prepareNextRevision filename σ
        with e | nodeOpt
      · simp [hlk] at h
      · rcases nodeOpt with _ | n
        · simp only [hlk] at h
          refine ⟨pn, filename, PublicFile.new t c, ?_, hw, ?_, rfl, ?_⟩
          · rw [hsegs, hm]
          · intro d0 hcontra
            rw [← lookupNode_prep, hlk] at hcontra
            simp at hcontra
          · simp only [Except.ok.injEq] at h
            rw [← h, fixUp_eq_fixDown]
        · rcases n with fb | d0
          · simp only [hlk] at h
            refine ⟨pn, filename, { fb.prepareNextRevision with userland := c, metadata := fb.prepareNextRevision.metadata.upsertMtime t }, ?_, hw, ?_, rfl, ?_⟩
            · rw [hsegs, hm]
            · intro d0 hcontra
              rw [← lookupNode_prep, hlk] at hcontra
              simp at hcontra
            · simp only [Except.ok.injEq] at h
              rw [← h, fixUp_eq_fixDown]
          · simp [hlk] at h

/-- Read-after-write: a successful `write` makes `read` of the same path
return the written content CID. -/
theorem write_read (σ : Store) (root : PublicDirectory) (segs : List String)
    (c : Cid) (t : Int) (root' : PublicDirectory)
    (h : write root segs c t σ = .ok root') : read root' segs σ = .ok c := by
  obtain ⟨pn, filename, f, hsegs, hwp, hnd, hfu, hroot⟩ :=
    write_spec σ root segs c t root' h
  rw [read_eq_readAux, hroot, hsegs]
  have husr : userlandGet ((pn.tail.prepareNextRevision).withUserland
      (userlandInsert filename (.decoded (.file f))
        (pn.tail.prepareNextRevision).userland)).userland filename =
      some (.decoded (.file f)) := by
    rw [withUserland_userland, userlandGet_insert_self]
  rw [readAux_fixDown_found σ filename pn.path _ f husr, hfu]

/-- A write to one path preserves every successful read at any other
path. -/
theorem write_preserves (σ : Store) (root : PublicDirectory)
    (p q : List String) (c : Cid) (t : Int) (root' : PublicDirectory)
    (c₀ : Cid) (h : write root p c t σ = .ok root') (hne : q ≠ p)
    (hr : read root q σ = .ok c₀) : read root' q σ = .ok c₀ := by
  obtain ⟨pn, filename, f, hsegs, hwp, hnd, hfu, hroot⟩ :=
    write_spec σ root p c t root' h
  rw [read_eq_readAux] at hr ⊢
  rw [hroot]
  exact readAux_fixDown_pres σ filename f hwp hnd q c₀ hr
    (by rw [← hsegs]; exact hne)

theorem lastWrite_none : ∀ (ops : List (List String × Cid × Int))
    (p : List String), lastWrite ops p = none → ∀ op ∈ ops, op.1 ≠ p := by
  intro ops
  induction ops with
  | nil => intro p h op hop; cases hop
  | cons o rest ih =>
    intro p h op hop
    rcases o with ⟨q, cq, tq⟩
    rw [lastWrite] at h
    rcases hrec : lastWrite rest p with _ | c'
    · rw [hrec] at h
      rcases List.mem_cons.mp hop with h1 | h1
      · subst h1
        show q ≠ p
        intro hqp
        rw [if_pos hqp] at h
        exact absurd h (by simp)
      · exact ih p hrec op h1
    · rw [hrec] at h
      exact absurd h (by simp)

/-- A whole sequence of writes that never touches `p` preserves a read
at `p`. -/
theorem applyOps_preserves (σ : Store) :
    ∀ (ops : List (List String × Cid × Int)) (root root' : PublicDirectory)
      (p : List String) (c₀ : Cid),
      applyOps σ root ops = .ok root' → (∀ op ∈ ops, op.1 ≠ p) →
      read root p σ = .ok c₀ → read root' p σ = .ok c₀ := by
  intro ops
  induction ops with
  | nil =>
    intro root root' p c₀ h hops hr
    simp only [applyOps, Except.ok.injEq] at h
    rw [← h]
    exact hr
  | cons o rest ih =>
    intro root root' p c₀ h hops hr
    rcases o with ⟨q, cq, tq⟩
    rw [applyOps] at h
    rcases hwr : write root q cq tq σ with e | root1
    · rw [hwr] at h; exact absurd h (by simp)
    · simp only [hwr] at h
      have hq : q ≠ p := hops (q, cq, tq) (List.mem_cons_self _ _)
      have hr1 : read root1 p σ = .ok c₀ :=
        write_preserves σ root q p cq tq root1 c₀ hwr
          (fun hpq => hq hpq.symm) hr
      exact ih root1 root' p c₀ h
        (fun op hop => hops op (List.mem_cons_of_mem _ hop)) hr1

/-- The final read after a sequence of writes returns the content of the
last write to that path. -/
theorem applyOps_lastWrite (σ : Store) :
    ∀ (ops : List (List String × Cid × Int)) (root root' : PublicDirectory)
      (p : List String) (c : Cid),
      applyOps σ root ops = .ok root' → lastWrite ops p = some c →
      read root' p σ = .ok c := by
  intro ops
  induction ops with
  | nil => intro root root' p c h hlw; simp [lastWrite] at hlw
  | cons o rest ih =>
    intro root root' p c h hlw
    rcases o with ⟨q, cq, tq⟩
    rw [applyOps] at h
    rcases hwr : write root q cq tq σ with e | root1
    · rw [hwr] at h; exact absurd h (by simp)
    · simp only [hwr] at h
      rw [lastWrite] at hlw
      rcases hrec : lastWrite rest p with _ | c'
      · rw [hrec] at hlw
        by_cases hqp : q = p
        · rw [if_pos hqp] at hlw
          have hc : cq = c := by simpa using hlw
          subst hqp
          have hr1 : read root1 q σ = .ok cq :=
            write_read σ root q cq tq root1 hwr
          rw [← hc]
          exact applyOps_preserves σ rest root1 root' q cq h
            (lastWrite_none rest q hrec) hr1
        · rw [if_neg hqp] at hlw
          exact absurd hlw (by simp)
      · rw [hrec] at hlw
        have hc : c' = c := by simpa using hlw
        subst hc
        exact ih root1 root' p c' h hrec

/-- C1: for every sequence of `write(path, content, time)` operations
applied to an initial root directory, the final `read(path)` returns the
content passed to the last `write(path, _, _)` in the sequence; and a
write to one path preserves the content readable at every other path
(in particular a later write to a disjoint path leaves the first path's
content unchanged). -/
theorem public_write_read_last_write :
    (∀ (σ : Store) (t0 : Int) (ops : List (List String × Cid × Int))
      (root' : PublicDirectory) (p : List String) (c : Cid),
      applyOps σ (PublicDirectory.new t0) ops = .ok root' →
      lastWrite ops p = some c → read root' p σ = .ok c) ∧
    (∀ (σ : Store) (root root' : PublicDirectory) (p q : List String)
      (c c₀ : Cid) (t : Int),
      write root p c t σ = .ok root' → q ≠ p →
      read root q σ = .ok c₀ → read root' q σ = .ok c₀) := by
  constructor
  · intro σ t0 ops root' p c h hlw
    exact applyOps_lastWrite σ ops (PublicDirectory.new t0) root' p c h hlw
  · intro σ root root' p q c c₀ t h hne hr
    exact write_preserves σ root p q c t root' c₀ h hne hr

/-- Concrete run of the C1 theorem: from a fresh root over an empty
store, write content 1 at `a`, then content 2 at the disjoint path `b`;
reading `a` and `b` afterwards returns 1 and 2. -/
theorem public_write_read_last_write_witness :
    ∃ root' : PublicDirectory,
      applyOps (fun _ => none) (PublicDirectory.new 0)
        [(["a"], 1, 0), (["b"], 2, 0)] = .ok root' ∧
      read root' ["a"] (fun _ => none) = .ok 1 ∧
      read root' ["b"] (fun _ => none) = .ok 2 := by
  refine ⟨_, rfl, ?_, ?_⟩
  · exact public_write_read_last_write.1 (fun _ => none) 0
      [(["a"], 1, 0), (["b"], 2, 0)] _ ["a"] 1 rfl rfl
  · exact public_write_read_last_write.1 (fun _ => none) 0
      [(["a"], 1, 0), (["b"], 2, 0)] _ ["b"] 2 rfl rfl

end Pub

namespace Hist

theorem popLoopRev_exhausted (forest : Forest) :
    ∀ (l : List PathSegmentHistory) (ws : List (PrivateDirectory × String)),
      (∀ s ∈ l, s.history.ratchets = []) →
      ∃ ws', popLoopRev forest l ws = ([], ws', false) := by
  intro l
  induction l with
  | nil => intro ws h; exact ⟨ws, rfl⟩
  | cons s rest ih =>
    intro ws h
    have hs : s.history.ratchets = [] := h s (List.mem_cons_self _ _)
    have hpd : previousDir s.history forest = (s.history, none) := by
      simp [previousDir, previousNode, hs]
    simp only [popLoopRev, hpd]
    exact ih (ws ++ [(s.dir, s.pathSegment)])
      (fun s' hm => h s' (List.mem_cons_of_mem _ hm))

/-- C7: the history iterator built by `previous_of` over a node with two
persisted revisions yields the first revision on the first call to
`previous` and absent (`none`) on the next call; and in general
`previous` returns absent once the target history is spent and the
ancestor stack is exhausted without any ancestor having a prior
revision. -/
theorem previous_iterator_two_revisions_then_none :
    (∀ (iter : PrivateNodeOnPathHistory) (forest : Forest) (budget : Nat),
      iter.target.ratchets = [] →
      (∀ s ∈ iter.path, s.history.ratchets = []) →
      previous iter forest budget = .ok (⟨[], iter.target⟩, none)) ∧
    (∃ iter0 iter1 iter2 : PrivateNodeOnPathHistory,
      previousOf hRoot2 ["f"] false hForest ⟨0, 0⟩ 1000000 = .ok iter0 ∧
      previous iter0 hForest 1000000 = .ok (iter1, some (hFile 0)) ∧
      previous iter1 hForest 1000000 = .ok (iter2, none)) := by
  constructor
  · intro iter forest budget ht hp
    have hpn : previousNode iter.target forest = (iter.target, none) := by
      simp [previousNode, ht]
    obtain ⟨ws', hpo⟩ := popLoopRev_exhausted forest iter.path.reverse []
      (fun s hm => hp s (List.mem_reverse.mp hm))
    simp [previous, hpn, hpo]
  · exact ⟨_, _, _, rfl, rfl, rfl⟩

/-- Concrete discharge of the general stack-exhaustion statement: an
iterator with an empty target history and empty ancestor stack returns
absent. -/
theorem previous_iterator_exhausted_witness :
    previous ⟨[], ⟨⟨0, ⟨0, 0⟩⟩, []⟩⟩ [] 0 =
      .ok (⟨[], ⟨⟨0, ⟨0, 0⟩⟩, []⟩⟩, none) :=
  previous_iterator_two_revisions_then_none.1 ⟨[], ⟨⟨0, ⟨0, 0⟩⟩, []⟩⟩ [] 0 rfl
    (by simp)

end Hist

end WNFS
